import Mathlib

/-!
# Verification of the `Hash_Table` repository (open addressing with double hashing)

Shallow embedding of the two open-addressing hash-table variants of the
repository:

* `VariantA` models `src/unnamed/part_000` (`HashTable.h`, growth variant):
  `hash2` is forced odd with `| 1`, insert grows (doubles and fully rehashes)
  when `count / size > 0.75`, and `remove` performs a deletion-repair pass that
  reinserts the contiguous occupied run following the cleared slot.
* `VariantB` models `src/Hash Table/HashTable.h` (strict policy variant):
  insert refuses outright when `count >= size / 2`, `doubleHash` carries a
  defensive out-of-range check, and `remove` just clears the slot.

Keys and values are `Nat`; the C++ code is templated over the key type with an
unspecified `std::hash`, which is modelled by an explicit hash-function
parameter `h : Nat → Nat`.  `int` / `size_t` arithmetic is modelled on `Nat`:
all quantities involved (`size`, `count`, probe indices, hash remainders) are
non-negative in the source, and the claims under study do not hinge on
machine-width overflow.  The C++ comparison
`static_cast<double>(count) / size > 0.75` is exact for `int`-ranged operands
and is rendered as `4 * count > 3 * size`.

Exceptions (`throw`) are modelled by an error component: a mutating operation
returns the table state at the moment the exception escapes together with
`Option Err` (`none` = normal return).  The `remove` of `VariantA` contains a
repair loop whose bound is not syntactic, so it takes explicit fuel and
returns `none : Option _` when the fuel runs out; the termination theorem
shows the chosen fuel is never exhausted on reachable tables.
-/

/-- Slot storage of both C++ variants: a `table` array of key-value pairs, a
parallel `occupied` array, the current capacity `size` and the number of
occupied slots `count`.  Stale pairs stay in `table` after a slot is cleared,
exactly as in the source (only `occupied` is reset). -/
structure HashTable where
  table : List (Nat × Nat)
  occupied : List Bool
  size : Nat
  count : Nat
  deriving DecidableEq, Repr

/-- `HashTable(int s)` constructor: `s` slots, all unoccupied, `count = 0`. -/
def mkHT (s : Nat) : HashTable :=
  { table := List.replicate s (0, 0)
    occupied := List.replicate s false
    size := s
    count := 0 }

/-- Errors thrown by the table operations.  `tableFull` is the
`runtime_error("Hash table is full")` of the growth variant,
`overHalfFull` and `outOfRange` belong to the strict variant.
`rehashRegrow` marks the (provably unreachable, see
`VariantA.rehash_no_regrow`) case where the recursive `insert` used during a
rehash would itself trigger another growth. -/
inductive Err where
  | tableFull
  | overHalfFull
  | outOfRange
  | rehashRegrow
  deriving DecidableEq, Repr

namespace VariantA

/-- `hash1(key) = hash<K>{}(key) % size`. -/
def hash1 (h : Nat → Nat) (n k : Nat) : Nat := h k % n

/-- `hash2(key) = 1 + (hash<K>{}(key) % (size - 1))`. -/
def hash2 (h : Nat → Nat) (n k : Nat) : Nat := 1 + h k % (n - 1)

/-- `doubleHash(key, i) = (h1 + i * (h2 | 1)) % size`. -/
def doubleHash (h : Nat → Nat) (n k i : Nat) : Nat :=
  (hash1 h n k + i * (hash2 h n k ||| 1)) % n

/-- One probe loop of `insert` (the `while (i < size)` loop): `fuel` is the
number of remaining probes, `i` the current probe number.  On success the pair
is placed (or the value overwritten in the matching slot); when the probes are
exhausted the table is returned unchanged with the `tableFull` error. -/
def insertLoop (h : Nat → Nat) (k v : Nat) :
    HashTable → Nat → Nat → HashTable × Option Err
  | t, _, 0 => (t, some .tableFull)
  | t, i, fuel + 1 =>
    let idx := doubleHash h t.size k i
    if t.occupied.getD idx false then
      if (t.table.getD idx (0, 0)).1 = k then
        ({ t with table := t.table.set idx (k, v) }, none)
      else
        insertLoop h k v t (i + 1) fuel
    else
      ({ t with table := t.table.set idx (k, v)
                occupied := t.occupied.set idx true
                count := t.count + 1 }, none)

/-- One reinsertion step of the rehash inside `resize`.  The source calls the
full `insert` here; its load-factor check can never fire during a rehash
(`4 * count ≤ 2 * size' < 3 * size'`, proved in `rehash_no_regrow`), so the
model runs the probe loop directly and flags the impossible branch with the
`rehashRegrow` error instead of recursing. -/
def rehashStep (h : Nat → Nat) (acc : HashTable) (kv : Nat × Nat) :
    HashTable × Option Err :=
  if 4 * acc.count > 3 * acc.size then (acc, some .rehashRegrow)
  else insertLoop h kv.1 kv.2 acc 0 acc.size

/-- The rehash loop of `resize`: reinsert the old entries in storage order,
stopping with the escaping exception if one reinsertion throws. -/
def rehashList (h : Nat → Nat) : List (Nat × Nat) → HashTable → HashTable × Option Err
  | [], acc => (acc, none)
  | kv :: rest, acc =>
    match rehashStep h acc kv with
    | (acc', none) => rehashList h rest acc'
    | (acc', some e) => (acc', some e)

/-- The occupied entries of the table in storage order (the pairs
`oldTable[i]` with `oldOccupied[i]`, for `i = 0 .. oldSize-1`). -/
def entriesFrom : List (Nat × Nat) → List Bool → List (Nat × Nat)
  | _, [] => []
  | [], _ => []
  | kv :: tl, o :: ol => if o then kv :: entriesFrom tl ol else entriesFrom tl ol

def entries (t : HashTable) : List (Nat × Nat) := entriesFrom t.table t.occupied

/-- `resize()`: double the capacity, reset to fresh empty storage and
`count = 0`, then reinsert every previously occupied entry in storage order. -/
def resize (h : Nat → Nat) (t : HashTable) : HashTable × Option Err :=
  rehashList h (entries t) (mkHT (2 * t.size))

/-- `insert(key, value)` of the growth variant: if `count / size > 0.75`
(exactly `4 * count > 3 * size` on integers) grow first, then run the probe
loop; an exception escaping the rehash escapes `insert` with the table in its
mid-rehash state. -/
def insert (h : Nat → Nat) (t : HashTable) (k v : Nat) : HashTable × Option Err :=
  if 4 * t.count > 3 * t.size then
    match resize h t with
    | (t', none) => insertLoop h k v t' 0 t'.size
    | (t', some e) => (t', some e)
  else insertLoop h k v t 0 t.size

/-- The probe loop of `retrieve`: stop with "not found" at the first
unoccupied slot, return the value at the first matching key, give up after
`size` probes. -/
def retrieveLoop (h : Nat → Nat) (k : Nat) (t : HashTable) : Nat → Nat → Option Nat
  | _, 0 => none
  | i, fuel + 1 =>
    let idx := doubleHash h t.size k i
    if t.occupied.getD idx false then
      if (t.table.getD idx (0, 0)).1 = k then some (t.table.getD idx (0, 0)).2
      else retrieveLoop h k t (i + 1) fuel
    else none

/-- `retrieve(key)`: `some v` models returning `v`, `none` models the
`runtime_error("Key not found")`. -/
def retrieve (h : Nat → Nat) (t : HashTable) (k : Nat) : Option Nat :=
  retrieveLoop h k t 0 t.size

/-- Fuel given to the deletion-repair loop.  The termination theorem shows the
loop stops strictly before this many iterations on any reachable table. -/
def repairFuel (n : Nat) : Nat := 2 * n * n * (n + 1) + n + 1

/-- The deletion-repair loop of `remove`: while slot `j` is occupied, clear
it, decrement `count`, reinsert its entry through the full `insert`, and move
to `(j + 1) % size`.  Returns `none` when the fuel runs out, otherwise the
final state together with an exception escaping from a reinsertion. -/
def repair (h : Nat → Nat) : Nat → HashTable → Nat → Option (HashTable × Option Err)
  | 0, _, _ => none
  | fuel + 1, t, j =>
    if t.occupied.getD j false then
      let k := (t.table.getD j (0, 0)).1
      let v := (t.table.getD j (0, 0)).2
      let t1 : HashTable :=
        { t with occupied := t.occupied.set j false, count := t.count - 1 }
      match insert h t1 k v with
      | (t2, none) => repair h fuel t2 ((j + 1) % t2.size)
      | (t2, some e) => some (t2, some e)
    else some (t, none)

/-- The probe loop of `remove`: find the key; at the first empty slot or after
`size` probes return with the table untouched; on a match clear the slot,
decrement `count` and run the repair loop from the next index. -/
def removeFrom (h : Nat → Nat) (k : Nat) :
    HashTable → Nat → Nat → Option (HashTable × Option Err)
  | t, _, 0 => some (t, none)
  | t, i, fuel + 1 =>
    let idx := doubleHash h t.size k i
    if t.occupied.getD idx false then
      if (t.table.getD idx (0, 0)).1 = k then
        let t1 : HashTable :=
          { t with occupied := t.occupied.set idx false, count := t.count - 1 }
        repair h (repairFuel t.size) t1 ((idx + 1) % t.size)
      else removeFrom h k t (i + 1) fuel
    else some (t, none)

/-- `remove(key)`.  `none` models non-termination of the repair loop (shown
unreachable on reachable tables), `some (t, e)` is the final state with the
escaping exception, if any. -/
def remove (h : Nat → Nat) (t : HashTable) (k : Nat) : Option (HashTable × Option Err) :=
  removeFrom h k t 0 t.size

end VariantA

namespace VariantB

/-- `hash1(key) = std::hash<K>{}(key) % size`. -/
def hash1 (h : Nat → Nat) (n k : Nat) : Nat := h k % n

/-- `hash2(key) = 1 + (std::hash<K>{}(key) % (size - 1))` (no `| 1` here). -/
def hash2 (h : Nat → Nat) (n k : Nat) : Nat := 1 + h k % (n - 1)

/-- `doubleHash(key, i)` with the defensive range check: `none` models the
`std::out_of_range` throw. -/
def doubleHash (h : Nat → Nat) (n k i : Nat) : Option Nat :=
  let index := (hash1 h n k + i * hash2 h n k) % n
  if index < n then some index else none

/-- The probe loop of the strict variant's `insert`; an out-of-range index is
rethrown (state unchanged: the loop has not mutated anything at that point). -/
def insertLoop (h : Nat → Nat) (k v : Nat) :
    HashTable → Nat → Nat → HashTable × Option Err
  | t, _, 0 => (t, some .tableFull)
  | t, i, fuel + 1 =>
    match doubleHash h t.size k i with
    | none => (t, some .outOfRange)
    | some idx =>
      if t.occupied.getD idx false then
        if (t.table.getD idx (0, 0)).1 = k then
          ({ t with table := t.table.set idx (k, v) }, none)
        else insertLoop h k v t (i + 1) fuel
      else
        ({ t with table := t.table.set idx (k, v)
                  occupied := t.occupied.set idx true
                  count := t.count + 1 }, none)

/-- `insert(key, value)` of the strict variant: refuse outright (before any
mutation) once `count >= size / 2`; no growth exists in this variant. -/
def insert (h : Nat → Nat) (t : HashTable) (k v : Nat) : HashTable × Option Err :=
  if t.count ≥ t.size / 2 then (t, some .overHalfFull)
  else insertLoop h k v t 0 t.size

/-- The probe loop of the strict variant never raises the over-half-full
error: that error is raised only by the guard before the loop. -/
theorem insertLoop_no_overHalf (h : Nat → Nat) (k v : Nat) (t : HashTable) :
    ∀ fuel i, (insertLoop h k v t i fuel).2 ≠ some Err.overHalfFull := by
  intro fuel
  induction fuel with
  | zero => intro i; simp [insertLoop]
  | succ f ih =>
    intro i
    simp only [insertLoop]
    split
    · simp
    · split
      · split
        · simp
        · exact ih (i + 1)
      · simp

end VariantB

/-! ## List and sum helpers -/

theorem getD_set_self {α : Type} (l : List α) (i : Nat) (a d : α) (h : i < l.length) :
    (l.set i a).getD i d = a := by
  rw [List.getD_eq_getElem?_getD, List.getElem?_set_eq_of_lt a h]
  rfl

theorem getD_set_ne {α : Type} (l : List α) (i j : Nat) (a d : α) (h : j ≠ i) :
    (l.set i a).getD j d = l.getD j d := by
  rw [List.getD_eq_getElem?_getD, List.getD_eq_getElem?_getD,
    List.getElem?_set_ne (fun he => h he.symm)]

theorem set_getD_self {α : Type} (l : List α) (i : Nat) (d : α) (h : i < l.length) :
    l.set i (l.getD i d) = l := by
  apply List.ext_getElem?
  intro n
  by_cases hn : n = i
  · subst hn
    rw [List.getElem?_set_eq_of_lt _ h, List.getElem?_eq_getElem h,
      List.getD_eq_getElem?_getD, List.getElem?_eq_getElem h]
    rfl
  · exact List.getElem?_set_ne (fun he => hn he.symm)

/-- Updating a single index of an indexed sum, in purely additive form. -/
theorem sum_update (n q : Nat) (g g' : Nat → Nat) (hq : q < n)
    (hagree : ∀ p, p < n → p ≠ q → g' p = g p) :
    (∑ p ∈ Finset.range n, g' p) + g q = (∑ p ∈ Finset.range n, g p) + g' q := by
  have hqmem : q ∈ Finset.range n := Finset.mem_range.mpr hq
  rw [← Finset.add_sum_erase _ g' hqmem, ← Finset.add_sum_erase _ g hqmem]
  have hsame : ∑ p ∈ (Finset.range n).erase q, g' p = ∑ p ∈ (Finset.range n).erase q, g p := by
    apply Finset.sum_congr rfl
    intro p hp
    have hpe := Finset.mem_erase.mp hp
    exact hagree p (Finset.mem_range.mp hpe.2) hpe.1
  rw [hsame]
  omega

theorem lor_one_ne_zero (x : Nat) : x ||| 1 ≠ 0 := by
  intro h
  have h0 : (x ||| 1).testBit 0 = (x.testBit 0 || (1 : Nat).testBit 0) := Nat.testBit_lor x 1 0
  rw [h] at h0
  simp at h0

namespace VariantA

/-! ## The probe sequence: first probe number reaching a given slot -/

/-- Scanning loop for `minIdx`: the first probe number `i` (counting up while
`fuel` probes remain) with `doubleHash h n k i = p`, or `n` if none. -/
def minIdxGo (h : Nat → Nat) (n k p : Nat) : Nat → Nat → Nat
  | 0, _ => n
  | fuel + 1, i => if doubleHash h n k i = p then i else minIdxGo h n k p fuel (i + 1)

/-- The first probe number `i < n` with `doubleHash h n k i = p`, or `n` when
slot `p` is not on the probe sequence of `k` within `n` probes. -/
def minIdx (h : Nat → Nat) (n k p : Nat) : Nat := minIdxGo h n k p n 0

theorem minIdxGo_spec (h : Nat → Nat) (n k p : Nat) :
    ∀ fuel i, (minIdxGo h n k p fuel i = n ∧
        ∀ m, i ≤ m → m < i + fuel → doubleHash h n k m ≠ p) ∨
      (i ≤ minIdxGo h n k p fuel i ∧ minIdxGo h n k p fuel i < i + fuel ∧
        doubleHash h n k (minIdxGo h n k p fuel i) = p ∧
        ∀ m, i ≤ m → m < minIdxGo h n k p fuel i → doubleHash h n k m ≠ p) := by
  intro fuel
  induction fuel with
  | zero => intro i; left; exact ⟨rfl, by omega⟩
  | succ f ih =>
    intro i
    by_cases hi : doubleHash h n k i = p
    · right
      simp only [minIdxGo, if_pos hi]
      exact ⟨Nat.le_refl i, by omega, hi, by omega⟩
    · have := ih (i + 1)
      simp only [minIdxGo, if_neg hi]
      rcases this with ⟨he, hall⟩ | ⟨h1, h2, h3, h4⟩
      · left
        refine ⟨he, fun m hm1 hm2 => ?_⟩
        by_cases hmi : m = i
        · subst hmi; exact hi
        · exact hall m (by omega) (by omega)
      · right
        refine ⟨by omega, by omega, h3, fun m hm1 hm2 => ?_⟩
        by_cases hmi : m = i
        · subst hmi; exact hi
        · exact h4 m (by omega) hm2

theorem minIdx_le_of_hit (h : Nat → Nat) (n k p i : Nat) (hi : i < n)
    (hp : doubleHash h n k i = p) : minIdx h n k p ≤ i := by
  show minIdxGo h n k p n 0 ≤ i
  rcases minIdxGo_spec h n k p n 0 with ⟨_, hall⟩ | ⟨_, _, _, hmin⟩
  · exact absurd hp (hall i (Nat.zero_le i) (by omega))
  · by_contra hgt
    exact hmin i (Nat.zero_le i) (by omega) hp

theorem minIdx_hit (h : Nat → Nat) (n k p : Nat) (hlt : minIdx h n k p < n) :
    doubleHash h n k (minIdx h n k p) = p := by
  show doubleHash h n k (minIdxGo h n k p n 0) = p
  have hlt' : minIdxGo h n k p n 0 < n := hlt
  rcases minIdxGo_spec h n k p n 0 with ⟨he, _⟩ | ⟨_, _, h3, _⟩
  · omega
  · exact h3

theorem minIdx_le (h : Nat → Nat) (n k p : Nat) : minIdx h n k p ≤ n := by
  rcases minIdxGo_spec h n k p n 0 with ⟨he, _⟩ | ⟨_, h2, _, _⟩
  · rw [minIdx]; omega
  · rw [minIdx]; omega

/-! ## Slot projections and well-formedness -/

/-- `occupied[p]` (out-of-range reads default to `false`; well-formed tables
never hit the default). -/
def occAt (t : HashTable) (p : Nat) : Bool := t.occupied.getD p false

/-- `table[p].first`. -/
def keyAt (t : HashTable) (p : Nat) : Nat := (t.table.getD p (0, 0)).1

/-- `table[p].second`. -/
def valAt (t : HashTable) (p : Nat) : Nat := (t.table.getD p (0, 0)).2

/-- The number of occupied slots. -/
def occSum (t : HashTable) : Nat :=
  ∑ p ∈ Finset.range t.size, if occAt t p then 1 else 0

/-- Every occupied slot lies on the probe sequence of its own key within
`size` probes: the defining property of slots filled by the probe loop. -/
def probeCons (h : Nat → Nat) (t : HashTable) : Prop :=
  ∀ p, p < t.size → occAt t p = true →
    ∃ i, i < t.size ∧ doubleHash h t.size (keyAt t p) i = p

/-- Invariant of every table reachable through the public operations:
positive capacity, storage arrays of length `size`, `count` equal to the
number of occupied slots, the load bound left by the growth policy
(`count - 1` never exceeds `0.75 * size`), and probe-consistency of all
occupied slots. -/
def Inv (h : Nat → Nat) (t : HashTable) : Prop :=
  0 < t.size ∧ t.table.length = t.size ∧ t.occupied.length = t.size ∧
    t.count = occSum t ∧ 4 * t.count ≤ 3 * t.size + 4 ∧ probeCons h t

/-- The loop-head invariant of the deletion-repair loop (capacity fixed at
`n`, the load bound tightened by the clear that started the removal). -/
def RInv (h : Nat → Nat) (n : Nat) (t : HashTable) : Prop :=
  t.size = n ∧ 0 < n ∧ t.table.length = n ∧ t.occupied.length = n ∧
    t.count = occSum t ∧ 4 * t.count ≤ 3 * n ∧ probeCons h t

/-- No occupied slot stores key `k`. -/
def KeyAbsent (t : HashTable) (k : Nat) : Prop :=
  ∀ p, p < t.size → occAt t p = true → keyAt t p ≠ k

instance (t : HashTable) (k : Nat) : Decidable (KeyAbsent t k) :=
  decidable_of_iff (∀ p, p < t.size → (occAt t p = true → keyAt t p ≠ k)) Iff.rfl

/-! ## Characterizations of the probe loops -/

theorem insertLoop_ok (h : Nat → Nat) (k v : Nat) (t : HashTable) :
    ∀ fuel i t', insertLoop h k v t i fuel = (t', none) →
      ∃ j, i ≤ j ∧ j < i + fuel ∧
        (∀ m, i ≤ m → m < j →
          occAt t (doubleHash h t.size k m) = true ∧
            keyAt t (doubleHash h t.size k m) ≠ k) ∧
        ((occAt t (doubleHash h t.size k j) = false ∧
            t' = { table := t.table.set (doubleHash h t.size k j) (k, v)
                   occupied := t.occupied.set (doubleHash h t.size k j) true
                   size := t.size
                   count := t.count + 1 }) ∨
          (occAt t (doubleHash h t.size k j) = true ∧
            keyAt t (doubleHash h t.size k j) = k ∧
            t' = { t with table := t.table.set (doubleHash h t.size k j) (k, v) })) := by
  intro fuel
  induction fuel with
  | zero => intro i t' hrun; simp [insertLoop] at hrun
  | succ f ih =>
    intro i t' hrun
    simp only [insertLoop] at hrun
    by_cases hocc : t.occupied.getD (doubleHash h t.size k i) false
    · rw [if_pos hocc] at hrun
      by_cases hkey : (t.table.getD (doubleHash h t.size k i) (0, 0)).1 = k
      · rw [if_pos hkey] at hrun
        refine ⟨i, Nat.le_refl i, by omega, by omega, Or.inr ⟨hocc, hkey, ?_⟩⟩
        exact (Prod.mk.injEq _ _ _ _ ▸ hrun).1.symm
      · rw [if_neg hkey] at hrun
        obtain ⟨j, hj1, hj2, hpre, hland⟩ := ih (i + 1) t' hrun
        refine ⟨j, by omega, by omega, fun m hm1 hm2 => ?_, hland⟩
        by_cases hmi : m = i
        · subst hmi; exact ⟨hocc, hkey⟩
        · exact hpre m (by omega) hm2
    · rw [if_neg hocc] at hrun
      refine ⟨i, Nat.le_refl i, by omega, by omega, Or.inl ⟨by simpa [occAt] using hocc, ?_⟩⟩
      exact (Prod.mk.injEq _ _ _ _ ▸ hrun).1.symm

theorem insertLoop_err (h : Nat → Nat) (k v : Nat) (t : HashTable) :
    ∀ fuel i t' e, insertLoop h k v t i fuel = (t', some e) →
      t' = t ∧ e = Err.tableFull ∧
        ∀ m, i ≤ m → m < i + fuel →
          occAt t (doubleHash h t.size k m) = true ∧
            keyAt t (doubleHash h t.size k m) ≠ k := by
  intro fuel
  induction fuel with
  | zero =>
    intro i t' e hrun
    simp only [insertLoop, Prod.mk.injEq] at hrun
    exact ⟨hrun.1.symm, (Option.some_inj.mp hrun.2).symm, by omega⟩
  | succ f ih =>
    intro i t' e hrun
    simp only [insertLoop] at hrun
    by_cases hocc : t.occupied.getD (doubleHash h t.size k i) false
    · rw [if_pos hocc] at hrun
      by_cases hkey : (t.table.getD (doubleHash h t.size k i) (0, 0)).1 = k
      · rw [if_pos hkey] at hrun
        simp at hrun
      · rw [if_neg hkey] at hrun
        obtain ⟨h1, h2, h3⟩ := ih (i + 1) t' e hrun
        refine ⟨h1, h2, fun m hm1 hm2 => ?_⟩
        by_cases hmi : m = i
        · subst hmi; exact ⟨hocc, hkey⟩
        · exact h3 m (by omega) (by omega)
    · rw [if_neg hocc] at hrun
      simp at hrun

/-- The probe loop succeeds as soon as some probe number below the fuel leads
to an unoccupied or matching slot. -/
theorem insertLoop_succeeds (h : Nat → Nat) (k v : Nat) (t : HashTable) (fuel : Nat)
    (hwit : ∃ i, i < fuel ∧ (occAt t (doubleHash h t.size k i) = false ∨
      keyAt t (doubleHash h t.size k i) = k)) :
    ∃ t', insertLoop h k v t 0 fuel = (t', none) := by
  obtain ⟨i, hi, hcase⟩ := hwit
  rcases hres : insertLoop h k v t 0 fuel with ⟨t', e⟩
  cases e with
  | none => exact ⟨t', rfl⟩
  | some err =>
    obtain ⟨_, _, hall⟩ := insertLoop_err h k v t fuel 0 t' err hres
    obtain ⟨hocc, hkey⟩ := hall i (Nat.zero_le i) (by omega)
    rcases hcase with hc | hc
    · rw [hocc] at hc; exact absurd hc (by simp)
    · exact absurd hc hkey

theorem retrieveLoop_some (h : Nat → Nat) (k : Nat) (t : HashTable) :
    ∀ fuel i v, retrieveLoop h k t i fuel = some v →
      ∃ j, i ≤ j ∧ j < i + fuel ∧
        (∀ m, i ≤ m → m < j →
          occAt t (doubleHash h t.size k m) = true ∧
            keyAt t (doubleHash h t.size k m) ≠ k) ∧
        occAt t (doubleHash h t.size k j) = true ∧
        keyAt t (doubleHash h t.size k j) = k ∧
        valAt t (doubleHash h t.size k j) = v := by
  intro fuel
  induction fuel with
  | zero => intro i v hrun; simp [retrieveLoop] at hrun
  | succ f ih =>
    intro i v hrun
    simp only [retrieveLoop] at hrun
    by_cases hocc : t.occupied.getD (doubleHash h t.size k i) false
    · rw [if_pos hocc] at hrun
      by_cases hkey : (t.table.getD (doubleHash h t.size k i) (0, 0)).1 = k
      · rw [if_pos hkey] at hrun
        exact ⟨i, Nat.le_refl i, by omega, by omega, hocc, hkey, Option.some_inj.mp hrun⟩
      · rw [if_neg hkey] at hrun
        obtain ⟨j, hj1, hj2, hpre, hland⟩ := ih (i + 1) v hrun
        refine ⟨j, by omega, by omega, fun m hm1 hm2 => ?_, hland⟩
        by_cases hmi : m = i
        · subst hmi; exact ⟨hocc, hkey⟩
        · exact hpre m (by omega) hm2
    · rw [if_neg hocc] at hrun
      exact absurd hrun (by simp)

theorem retrieveLoop_reach (h : Nat → Nat) (k : Nat) (t : HashTable) :
    ∀ fuel i j v, i ≤ j → j < i + fuel →
      (∀ m, i ≤ m → m < j →
        occAt t (doubleHash h t.size k m) = true ∧
          keyAt t (doubleHash h t.size k m) ≠ k) →
      occAt t (doubleHash h t.size k j) = true →
      keyAt t (doubleHash h t.size k j) = k →
      valAt t (doubleHash h t.size k j) = v →
      retrieveLoop h k t i fuel = some v := by
  intro fuel
  induction fuel with
  | zero => intro i j v h1 h2; omega
  | succ f ih =>
    intro i j v h1 h2 hpre hocc hkey hval
    simp only [retrieveLoop]
    simp only [occAt, keyAt, valAt] at hocc hkey hval
    by_cases hij : i = j
    · subst hij
      rw [if_pos hocc, if_pos hkey]
      exact congrArg some hval
    · obtain ⟨hocc', hkey'⟩ := hpre i (Nat.le_refl i) (by omega)
      simp only [occAt, keyAt] at hocc' hkey'
      rw [if_pos hocc', if_neg hkey']
      exact ih (i + 1) j v (by omega) (by omega) (fun m hm1 hm2 => hpre m (by omega) hm2)
        (by simpa [occAt] using hocc) (by simpa [keyAt] using hkey)
        (by simpa [valAt] using hval)

end VariantA

/-! ## Claim C10: probe indices in range, step never zero -/

/-- C10: for every table capacity `n ≥ 2`, key and probe number `i < n`, the
probe functions of both variants return an index in `[0, n)`; the step
derived from the second hash (`hash2 | 1` in the growth variant, `hash2`
itself in the strict variant) is never `0`; consequently the strict variant's
defensive out-of-range branch is unreachable (`doubleHash` always returns
`some index` with `index < n`). -/
theorem probe_in_range_step_nonzero (h : Nat → Nat) (n k i : Nat)
    (hn : 2 ≤ n) (hi : i < n) :
    VariantA.doubleHash h n k i < n ∧
      VariantA.hash2 h n k ||| 1 ≠ 0 ∧
      VariantB.hash2 h n k ≠ 0 ∧
      VariantB.doubleHash h n k i =
        some ((VariantB.hash1 h n k + i * VariantB.hash2 h n k) % n) ∧
      (VariantB.hash1 h n k + i * VariantB.hash2 h n k) % n < n := by
  have hpos : 0 < n := by omega
  have hA : VariantA.doubleHash h n k i < n := Nat.mod_lt _ hpos
  have hBlt : (VariantB.hash1 h n k + i * VariantB.hash2 h n k) % n < n :=
    Nat.mod_lt _ hpos
  refine ⟨hA, lor_one_ne_zero _, ?_, ?_, hBlt⟩
  · show 1 + h k % (n - 1) ≠ 0
    omega
  · show VariantB.doubleHash h n k i = _
    simp only [VariantB.doubleHash]
    rw [if_pos hBlt]

theorem probe_in_range_step_nonzero_witness :
    2 ≤ 10 ∧ 3 < 10 ∧
      (VariantA.doubleHash id 10 7 3 < 10 ∧
        VariantA.hash2 id 10 7 ||| 1 ≠ 0 ∧
        VariantB.hash2 id 10 7 ≠ 0 ∧
        VariantB.doubleHash id 10 7 3 =
          some ((VariantB.hash1 id 10 7 + 3 * VariantB.hash2 id 10 7) % 10) ∧
        (VariantB.hash1 id 10 7 + 3 * VariantB.hash2 id 10 7) % 10 < 10) :=
  ⟨by decide, by decide,
    probe_in_range_step_nonzero id 10 7 3 (by decide) (by decide)⟩

/-! ## Claim C6: the strict variant's over-half-full policy -/

/-- C6: in the strict variant, whenever `count ≥ size / 2` (the source's
integer division) every insert fails with the over-half-full error, before
any growth attempt or mutation — the returned state is exactly the input
state; and whenever `count < size / 2`, insert never raises that error. -/
theorem insertB_over_half_policy (h : Nat → Nat) (t : HashTable) (k v : Nat) :
    (t.count ≥ t.size / 2 → VariantB.insert h t k v = (t, some Err.overHalfFull)) ∧
      (t.count < t.size / 2 → (VariantB.insert h t k v).2 ≠ some Err.overHalfFull) := by
  constructor
  · intro hge
    simp only [VariantB.insert]
    rw [if_pos hge]
  · intro hlt
    simp only [VariantB.insert]
    rw [if_neg (by omega)]
    exact VariantB.insertLoop_no_overHalf h k v t t.size 0

theorem insertB_over_half_policy_witness :
    ({ mkHT 10 with count := 5 } : HashTable).count ≥ ({ mkHT 10 with count := 5 } : HashTable).size / 2 ∧
      VariantB.insert id { mkHT 10 with count := 5 } 1 2 =
        ({ mkHT 10 with count := 5 }, some Err.overHalfFull) ∧
      (mkHT 10).count < (mkHT 10).size / 2 ∧
      (VariantB.insert id (mkHT 10) 1 2).2 ≠ some Err.overHalfFull :=
  ⟨by decide,
    (insertB_over_half_policy id { mkHT 10 with count := 5 } 1 2).1 (by decide),
    by decide,
    (insertB_over_half_policy id (mkHT 10) 1 2).2 (by decide)⟩

namespace VariantA

/-! ## Preservation lemmas for the probe loop and the rehash -/

/-- A fresh table has no occupied slot. -/
theorem occAt_mkHT (s p : Nat) : occAt (mkHT s) p = false := by
  simp only [occAt, mkHT, List.getD_eq_getElem?_getD, List.getElem?_replicate]
  split <;> rfl

theorem insertLoop_wf (h : Nat → Nat) (k v : Nat) (t : HashTable) (fuel i : Nat)
    (t' : HashTable) (e : Option Err) (hrun : insertLoop h k v t i fuel = (t', e)) :
    t'.size = t.size ∧ t'.table.length = t.table.length ∧
      t'.occupied.length = t.occupied.length := by
  cases e with
  | none =>
    obtain ⟨j, _, _, _, hland⟩ := insertLoop_ok h k v t fuel i t' hrun
    rcases hland with ⟨_, ht'⟩ | ⟨_, _, ht'⟩ <;>
      simp [ht', List.length_set]
  | some err =>
    obtain ⟨ht', _, _⟩ := insertLoop_err h k v t fuel i t' err hrun
    simp [ht']

/-- A successful probe-loop insertion of a key different from `k` keeps `k`
absent. -/
theorem insertLoop_keyAbsent (h : Nat → Nat) (kins v k : Nat) (t t' : HashTable)
    (hpos : 0 < t.size)
    (hlt : t.table.length = t.size) (hlo : t.occupied.length = t.size)
    (hne : kins ≠ k) (habs : KeyAbsent t k) (fuel i : Nat)
    (hrun : insertLoop h kins v t i fuel = (t', none)) : KeyAbsent t' k := by
  obtain ⟨j, _, hj2, _, hland⟩ := insertLoop_ok h kins v t fuel i t' hrun
  have hqlt : doubleHash h t.size kins j < t.size := Nat.mod_lt _ hpos
  intro p hp hocc
  rcases hland with ⟨hq, ht'⟩ | ⟨hq, hqk, ht'⟩
  · subst ht'
    simp only [keyAt]
    by_cases hpq : p = doubleHash h t.size kins j
    · rw [hpq, getD_set_self _ _ _ _ (by omega)]
      exact hne
    · rw [getD_set_ne _ _ _ _ _ hpq]
      have hocc' : occAt t p = true := by
        simpa only [occAt, getD_set_ne _ _ _ _ _ hpq] using hocc
      exact habs p (by simpa using hp) hocc'
  · subst ht'
    simp only [keyAt]
    by_cases hpq : p = doubleHash h t.size kins j
    · rw [hpq, getD_set_self _ _ _ _ (by omega)]
      exact hne
    · rw [getD_set_ne _ _ _ _ _ hpq]
      exact habs p (by simpa using hp) hocc

/-- Properties preserved along the rehash loop: capacity and storage lengths
are unchanged, and a key absent from the accumulator and from the pending
entries stays absent. -/
theorem rehashList_props (h : Nat → Nat) (k : Nat) :
    ∀ (l : List (Nat × Nat)) acc acc' e, rehashList h l acc = (acc', e) →
      acc.table.length = acc.size → acc.occupied.length = acc.size →
      KeyAbsent acc k → (∀ kv ∈ l, kv.1 ≠ k) →
      acc'.size = acc.size ∧ acc'.table.length = acc.size ∧
        acc'.occupied.length = acc.size ∧ KeyAbsent acc' k := by
  intro l
  induction l with
  | nil =>
    intro acc acc' e hrun hlt hlo habs _
    simp only [rehashList, Prod.mk.injEq] at hrun
    rw [← hrun.1]
    exact ⟨rfl, hlt, hlo, habs⟩
  | cons kv rest ih =>
    intro acc acc' e hrun hlt hlo habs hkeys
    simp only [rehashList] at hrun
    rcases hstep : rehashStep h acc kv with ⟨acc1, e1⟩
    rw [hstep] at hrun
    cases e1 with
    | none =>
      have hstep1 : acc1.size = acc.size ∧ acc1.table.length = acc.size ∧
          acc1.occupied.length = acc.size ∧ KeyAbsent acc1 k := by
        by_cases hchk : 4 * acc.count > 3 * acc.size
        · rw [rehashStep, if_pos hchk] at hstep
          simp at hstep
        · rw [rehashStep, if_neg hchk] at hstep
          have hpos : 0 < acc.size := by
            by_contra h0
            have hz : acc.size = 0 := by omega
            rw [hz] at hstep
            simp [insertLoop] at hstep
          have hwf := insertLoop_wf h kv.1 kv.2 acc acc.size 0 acc1 none hstep
          have hne : kv.1 ≠ k := hkeys kv (List.mem_cons_self kv rest)
          have habs1 := insertLoop_keyAbsent h kv.1 kv.2 k acc acc1 hpos hlt hlo
            hne habs acc.size 0 hstep
          exact ⟨hwf.1, by omega, by omega, habs1⟩
      have hrest := ih acc1 acc' e hrun (by omega) (by omega) hstep1.2.2.2
        (fun p hp => hkeys p (List.mem_cons_of_mem kv hp))
      refine ⟨by omega, by omega, by omega, hrest.2.2.2⟩
    | some err =>
      simp only [Prod.mk.injEq] at hrun
      have hacc1 : acc1 = acc := by
        by_cases hchk : 4 * acc.count > 3 * acc.size
        · rw [rehashStep, if_pos hchk] at hstep
          exact ((Prod.mk.injEq _ _ _ _).mp hstep).1.symm
        · rw [rehashStep, if_neg hchk] at hstep
          exact (insertLoop_err h kv.1 kv.2 acc acc.size 0 acc1 err hstep).1
      rw [← hrun.1, hacc1]
      exact ⟨rfl, hlt, hlo, habs⟩

/-- Every entry produced by `entriesFrom` comes from an occupied slot. -/
theorem entriesFrom_mem :
    ∀ (tb : List (Nat × Nat)) (oc : List Bool) kv, kv ∈ entriesFrom tb oc →
      ∃ p, p < tb.length ∧ p < oc.length ∧ oc.getD p false = true ∧
        tb.getD p (0, 0) = kv := by
  intro tb
  induction tb with
  | nil => intro oc kv hmem; cases oc <;> simp [entriesFrom] at hmem
  | cons hd tl ih =>
    intro oc kv hmem
    cases oc with
    | nil => simp [entriesFrom] at hmem
    | cons o ol =>
      simp only [entriesFrom] at hmem
      cases o with
      | false =>
        rw [if_neg (by simp)] at hmem
        obtain ⟨p, h1, h2, h3, h4⟩ := ih ol kv hmem
        exact ⟨p + 1, by simpa using h1, by simpa using h2, h3, h4⟩
      | true =>
        rw [if_pos rfl] at hmem
        rcases List.mem_cons.mp hmem with heq | hmem'
        · exact ⟨0, by simp, by simp, rfl, heq.symm⟩
        · obtain ⟨p, h1, h2, h3, h4⟩ := ih ol kv hmem'
          exact ⟨p + 1, by simpa using h1, by simpa using h2, h3, h4⟩

/-- Core of the insert-then-retrieve round trip, for one run of the probe
loop: if `k` is absent and the probe loop succeeds, the subsequent retrieve
walks the same probe prefix and finds the value just written. -/
theorem insertLoop_retrieve (h : Nat → Nat) (k v : Nat) (t t' : HashTable)
    (hlt : t.table.length = t.size) (hlo : t.occupied.length = t.size)
    (habs : KeyAbsent t k) (hrun : insertLoop h k v t 0 t.size = (t', none)) :
    retrieve h t' k = some v := by
  obtain ⟨j, _, hj2, hpre, hland⟩ := insertLoop_ok h k v t t.size 0 t' hrun
  have hpos : 0 < t.size := by omega
  have hqlt : doubleHash h t.size k j < t.size := Nat.mod_lt _ hpos
  rcases hland with ⟨hq, ht'⟩ | ⟨hq, hqk, _⟩
  · subst ht'
    apply retrieveLoop_reach h k _ t.size 0 j v (Nat.zero_le j) (by omega)
    · intro m hm1 hm2
      obtain ⟨ho, hk⟩ := hpre m hm1 hm2
      have hne : doubleHash h t.size k m ≠ doubleHash h t.size k j := by
        intro heq
        rw [heq] at ho
        rw [ho] at hq
        cases hq
      constructor
      · show occAt _ _ = true
        simp only [occAt, getD_set_ne _ _ _ _ _ hne]
        exact ho
      · show keyAt _ _ ≠ k
        simp only [keyAt, getD_set_ne _ _ _ _ _ hne]
        exact hk
    · show occAt _ _ = true
      simp only [occAt]
      rw [getD_set_self _ _ _ _ (by omega)]
    · show keyAt _ _ = k
      simp only [keyAt]
      rw [getD_set_self _ _ _ _ (by omega)]
    · show valAt _ _ = v
      simp only [valAt]
      rw [getD_set_self _ _ _ _ (by omega)]
  · exact absurd hqk (habs _ hqlt hq)

end VariantA

/-! ## Claim C2: insert-then-retrieve round trip -/

/-- C2: on any table whose storage arrays match its capacity, for a key `k`
held by no occupied slot, a successful `insert(k, v)` followed by
`retrieve(k)` returns `v` — also when the insert grew the table first. -/
theorem insert_then_retrieve (h : Nat → Nat) (t : HashTable) (k v : Nat) (t' : HashTable)
    (hlt : t.table.length = t.size) (hlo : t.occupied.length = t.size)
    (habs : VariantA.KeyAbsent t k)
    (hok : VariantA.insert h t k v = (t', none)) :
    VariantA.retrieve h t' k = some v := by
  rw [VariantA.insert] at hok
  by_cases hchk : 4 * t.count > 3 * t.size
  · rw [if_pos hchk] at hok
    rcases hres : VariantA.resize h t with ⟨tr, er⟩
    rw [hres] at hok
    cases er with
    | some e => simp at hok
    | none =>
      have hmkabs : VariantA.KeyAbsent (mkHT (2 * t.size)) k := by
        intro p hp hocc
        rw [VariantA.occAt_mkHT] at hocc
        cases hocc
      have hkeys : ∀ kv ∈ VariantA.entries t, kv.1 ≠ k := by
        intro kv hmem
        obtain ⟨p, hp1, hp2, hp3, hp4⟩ := VariantA.entriesFrom_mem t.table t.occupied kv hmem
        have h2 := habs p (by omega) (by simpa [VariantA.occAt] using hp3)
        simp only [VariantA.keyAt] at h2
        rw [hp4] at h2
        exact h2
      have hprops := VariantA.rehashList_props h k (VariantA.entries t)
        (mkHT (2 * t.size)) tr none hres (by simp [mkHT]) (by simp [mkHT]) hmkabs hkeys
      have hmksize : (mkHT (2 * t.size)).size = 2 * t.size := rfl
      exact VariantA.insertLoop_retrieve h k v tr t' (by omega) (by omega)
        hprops.2.2.2 hok
  · rw [if_neg hchk] at hok
    exact VariantA.insertLoop_retrieve h k v t t' hlt hlo habs hok

theorem insert_then_retrieve_witness :
    VariantA.retrieve id ((VariantA.insert id (mkHT 10) 5 7).1) 5 = some 7 :=
  insert_then_retrieve id (mkHT 10) 5 7 ((VariantA.insert id (mkHT 10) 5 7).1)
    (by decide) (by decide) (by decide) (by decide)

namespace VariantA

/-- The rehash loop never changes the capacity of its accumulator. -/
theorem rehashList_size (h : Nat → Nat) :
    ∀ (l : List (Nat × Nat)) acc acc' e, rehashList h l acc = (acc', e) →
      acc'.size = acc.size := by
  intro l
  induction l with
  | nil =>
    intro acc acc' e hrun
    simp only [rehashList, Prod.mk.injEq] at hrun
    rw [← hrun.1]
  | cons kv rest ih =>
    intro acc acc' e hrun
    simp only [rehashList] at hrun
    rcases hstep : rehashStep h acc kv with ⟨acc1, e1⟩
    rw [hstep] at hrun
    have hacc1 : acc1.size = acc.size := by
      by_cases hchk : 4 * acc.count > 3 * acc.size
      · rw [rehashStep, if_pos hchk] at hstep
        rw [← ((Prod.mk.injEq _ _ _ _).mp hstep).1]
      · rw [rehashStep, if_neg hchk] at hstep
        exact (insertLoop_wf h kv.1 kv.2 acc acc.size 0 acc1 e1 hstep).1
    cases e1 with
    | none => rw [ih acc1 acc' e hrun, hacc1]
    | some err =>
      simp only [Prod.mk.injEq] at hrun
      rw [← hrun.1, hacc1]

/-- A successful retrieve of `(k, v)` exhibits an occupied slot storing them. -/
theorem retrieve_some_stored (h : Nat → Nat) (t : HashTable) (k v : Nat)
    (hret : retrieve h t k = some v) :
    ∃ p, p < t.size ∧ occAt t p = true ∧ keyAt t p = k ∧ valAt t p = v := by
  obtain ⟨j, _, hj2, _, hocc, hkey, hval⟩ := retrieveLoop_some h k t t.size 0 v hret
  have hpos : 0 < t.size := by omega
  exact ⟨doubleHash h t.size k j, Nat.mod_lt _ hpos, hocc, hkey, hval⟩

end VariantA

/-! ## Concrete tables used by the counterexamples -/

/-- A fresh capacity-10 table after `insert(0, 100)` and `insert(10, 200)`
(identity hash): key 0 sits in slot 0, key 10 probes through slot 0 and lands
in slot 3. -/
def tAB : HashTable :=
  (VariantA.insert id ((VariantA.insert id (mkHT 10) 0 100).1) 10 200).1

/-- The table `tAB` after `remove(0)`: the repair pass stops at the empty
slot 1 and never reinserts key 10 from slot 3. -/
def tA : HashTable := ((VariantA.remove id tAB 0).getD (mkHT 0, none)).1

/-- A fresh capacity-10 table filled with the eight keys
22, 6, 11, 32, 25, 5, 7, 17 (identity hash, value = key): the next insert
triggers growth, and in the doubled table the probe sequence of key 32 only
visits slots {2, 7, 12, 17}. -/
def t8 : HashTable :=
  [22, 6, 11, 32, 25, 5, 7, 17].foldl (fun a k => (VariantA.insert id a k k).1) (mkHT 10)

/-- A fresh capacity-10 table filled with keys 0..6 (identity hash). -/
def t7 : HashTable :=
  [0, 1, 2, 3, 4, 5, 6].foldl (fun a k => (VariantA.insert id a k k).1) (mkHT 10)

/-! ## Claim C1: the deletion repair does not restore reachability -/

/-- C1 fails on the code: in the reachable table `tAB` both keys 0 and 10 are
present and retrievable; `remove(0)` clears slot 0, the repair pass stops
immediately at the empty slot 1, and key 10 — whose probe sequence passes
through slot 0 before reaching its slot 3 — is still stored but no longer
retrievable.  The contiguous-run repair is sound for linear probing only; the
probe step of key 10 is 3, so its displaced position is not in the contiguous
run after slot 0. -/
theorem remove_breaks_reachability :
    VariantA.retrieve id tAB 0 = some 100 ∧
      VariantA.retrieve id tAB 10 = some 200 ∧
      VariantA.remove id tAB 0 = some (tA, none) ∧
      VariantA.occAt tA 3 = true ∧ VariantA.keyAt tA 3 = 10 ∧
      VariantA.valAt tA 3 = 200 ∧
      VariantA.retrieve id tA 10 = none := by
  decide

/-! ## Claim C5: count no longer matches the number of retrievable keys -/

/-- C5 fails on the code: after the reachable sequence
`insert(0), insert(10), remove(0)` the count is 1, yet no key at all is
retrievable (the only stored key, 10, was made unreachable by the faulty
deletion repair). -/
theorem count_mismatches_retrievable :
    tA.count = 1 ∧ ∀ k, VariantA.retrieve id tA k = none := by
  constructor
  · decide
  · intro k
    rcases hres : VariantA.retrieve id tA k with _ | v
    · rfl
    · exfalso
      obtain ⟨p, hp, hocc, hkey, _⟩ := VariantA.retrieve_some_stored id tA k v hres
      have hsize : tA.size = 10 := by decide
      rw [hsize] at hp
      have hp3 : p = 3 :=
        (by decide : ∀ q, q < 10 → VariantA.occAt tA q = true → q = 3) p hp hocc
      rw [hp3] at hkey
      have hk : k = 10 := by
        have h10 : VariantA.keyAt tA 3 = 10 := by decide
        omega
      rw [hk] at hres
      have hnone : VariantA.retrieve id tA 10 = none := by decide
      rw [hnone] at hres
      exact Option.noConfusion hres

/-! ## Claim C3: when growth actually runs -/

/-- C3 as stated fails on the code: in the reachable table `t7`
(count 7, capacity 10), placing one more entry pushes the load factor to
`8 / 10 > 0.75`, so the claim requires growth to run first — but the source
only checks the load factor *before* placement (`count / size > 0.75`, i.e.
`7 / 10` here), so the insert succeeds without growing. -/
theorem grow_before_insert_fails :
    t7.count = 7 ∧ t7.size = 10 ∧
      4 * (t7.count + 1) > 3 * t7.size ∧
      (VariantA.insert id t7 7 77).2 = none ∧
      ((VariantA.insert id t7 7 77).1).size = t7.size := by
  decide

/-- C3 amended: growth (exactly one doubling) runs on an insert if and only
if the load factor *before* placing the entry already exceeds 0.75
(`4 * count > 3 * size`); it runs before any probe of the new entry, and
otherwise the capacity is untouched. -/
theorem grow_exactly_on_prior_load (h : Nat → Nat) (t : HashTable) (k v : Nat)
    (t' : HashTable) (hok : VariantA.insert h t k v = (t', none)) :
    (4 * t.count > 3 * t.size → t'.size = 2 * t.size) ∧
      (4 * t.count ≤ 3 * t.size → t'.size = t.size) := by
  rw [VariantA.insert] at hok
  by_cases hchk : 4 * t.count > 3 * t.size
  · rw [if_pos hchk] at hok
    rcases hres : VariantA.resize h t with ⟨tr, er⟩
    rw [hres] at hok
    cases er with
    | some e => simp at hok
    | none =>
      have h1 : tr.size = 2 * t.size := VariantA.rehashList_size h _ _ tr none hres
      have h2 := (VariantA.insertLoop_wf h k v tr tr.size 0 t' none hok).1
      exact ⟨fun _ => by omega, fun hle => by omega⟩
  · rw [if_neg hchk] at hok
    have h2 := (VariantA.insertLoop_wf h k v t t.size 0 t' none hok).1
    exact ⟨fun hgt => by omega, fun _ => h2⟩

/-- Witness exercising the growth branch: eight keys 0..7 fill a capacity-10
table; the ninth insert finds `4 * 8 > 3 * 10`, doubles to 20 and succeeds. -/
theorem grow_exactly_on_prior_load_witness :
    (4 * ([0, 1, 2, 3, 4, 5, 6, 7].foldl
        (fun a k => (VariantA.insert id a k k).1) (mkHT 10)).count >
      3 * ([0, 1, 2, 3, 4, 5, 6, 7].foldl
        (fun a k => (VariantA.insert id a k k).1) (mkHT 10)).size →
      ((VariantA.insert id ([0, 1, 2, 3, 4, 5, 6, 7].foldl
        (fun a k => (VariantA.insert id a k k).1) (mkHT 10)) 8 8).1).size =
        2 * ([0, 1, 2, 3, 4, 5, 6, 7].foldl
        (fun a k => (VariantA.insert id a k k).1) (mkHT 10)).size) ∧
      (4 * ([0, 1, 2, 3, 4, 5, 6, 7].foldl
        (fun a k => (VariantA.insert id a k k).1) (mkHT 10)).count ≤
      3 * ([0, 1, 2, 3, 4, 5, 6, 7].foldl
        (fun a k => (VariantA.insert id a k k).1) (mkHT 10)).size →
      ((VariantA.insert id ([0, 1, 2, 3, 4, 5, 6, 7].foldl
        (fun a k => (VariantA.insert id a k k).1) (mkHT 10)) 8 8).1).size =
        ([0, 1, 2, 3, 4, 5, 6, 7].foldl
        (fun a k => (VariantA.insert id a k k).1) (mkHT 10)).size) :=
  grow_exactly_on_prior_load id _ 8 8 _ (by decide)

/-! ## Claim C7: growth can lose entries -/

/-- C7 fails on the code: the reachable table `t8` (count 8, capacity 10)
triggers growth on the next insert; during the rehash into capacity 20 the
probe cycle of key 32 (step 15, gcd 5 with 20) visits only slots
{2, 7, 12, 17}, which are already taken by keys rehashed before it, so the
recursive insert throws "Hash table is full" out of the growth; the capacity
has doubled yet key 32 — present and retrievable before — is gone. -/
theorem growth_loses_present_key :
    4 * t8.count > 3 * t8.size ∧
      VariantA.retrieve id t8 32 = some 32 ∧
      VariantA.insert id t8 10 10 =
        ((VariantA.insert id t8 10 10).1, some Err.tableFull) ∧
      ((VariantA.insert id t8 10 10).1).size = 2 * t8.size ∧
      VariantA.retrieve id ((VariantA.insert id t8 10 10).1) 32 = none := by
  decide

/-! ## Claim C8: update semantics -/

/-- C8 as stated fails on the code: in the reachable table `tA` key 10 is
present (stored in slot 3), but its probe path was broken by the faulty
deletion repair.  Re-inserting key 10 does not update slot 3 in place: the
probe loop stops at the now-empty slot 0 and creates a second copy, and
`count` rises from 1 to 2. -/
theorem update_duplicates_present_key :
    VariantA.occAt tA 3 = true ∧ VariantA.keyAt tA 3 = 10 ∧
      tA.count = 1 ∧
      (VariantA.insert id tA 10 999).2 = none ∧
      ((VariantA.insert id tA 10 999).1).count = 2 ∧
      VariantA.occAt ((VariantA.insert id tA 10 999).1) 0 = true ∧
      VariantA.keyAt ((VariantA.insert id tA 10 999).1) 0 = 10 ∧
      VariantA.occAt ((VariantA.insert id tA 10 999).1) 3 = true ∧
      VariantA.keyAt ((VariantA.insert id tA 10 999).1) 3 = 10 := by
  decide

/-- C8 amended: for a key `k` that is currently *retrievable*, if the insert
does not trigger growth (`4 * count ≤ 3 * size`), inserting `k` again
overwrites the value in place: the insert succeeds, `count`, capacity and the
occupancy of every slot are unchanged, and a subsequent retrieve returns the
new value. -/
theorem update_in_place (h : Nat → Nat) (t : HashTable) (k v v0 : Nat)
    (hlt : t.table.length = t.size)
    (hchk : 4 * t.count ≤ 3 * t.size)
    (hret : VariantA.retrieve h t k = some v0) :
    ∃ t', VariantA.insert h t k v = (t', none) ∧ t'.count = t.count ∧
      t'.size = t.size ∧ t'.occupied = t.occupied ∧
      VariantA.retrieve h t' k = some v := by
  obtain ⟨j, _, hj2, hpre, hocc, hkey, _⟩ :=
    VariantA.retrieveLoop_some h k t t.size 0 v0 hret
  have hpos : 0 < t.size := by omega
  have hins : VariantA.insert h t k v = VariantA.insertLoop h k v t 0 t.size := by
    rw [VariantA.insert, if_neg (by omega)]
  obtain ⟨t', hok⟩ := VariantA.insertLoop_succeeds h k v t t.size
    ⟨j, by omega, Or.inr hkey⟩
  obtain ⟨j', _, hj2', hpre', hland⟩ := VariantA.insertLoop_ok h k v t t.size 0 t' hok
  have hj'le : j' ≤ j := by
    by_contra hgt
    exact (hpre' j (Nat.zero_le j) (by omega)).2 hkey
  have hqlt' : VariantA.doubleHash h t.size k j' < t.size := Nat.mod_lt _ hpos
  rcases hland with ⟨hq, _⟩ | ⟨hq, hqk, ht'⟩
  · exfalso
    by_cases hj'j : j' = j
    · rw [hj'j] at hq
      rw [hocc] at hq
      cases hq
    · have := (hpre j' (Nat.zero_le j') (by omega)).1
      rw [this] at hq
      cases hq
  · subst ht'
    refine ⟨{ t with table := t.table.set (VariantA.doubleHash h t.size k j') (k, v) },
      by rw [hins, hok], rfl, rfl, rfl, ?_⟩
    apply VariantA.retrieveLoop_reach h k _ t.size 0 j' v (Nat.zero_le j') (by omega)
    · intro m hm1 hm2
      obtain ⟨ho, hk⟩ := hpre' m hm1 hm2
      have hne : VariantA.doubleHash h t.size k m ≠ VariantA.doubleHash h t.size k j' := by
        intro heq
        rw [heq] at hk
        exact hk hqk
      refine ⟨ho, ?_⟩
      show ((t.table.set (VariantA.doubleHash h t.size k j') (k, v)).getD
        (VariantA.doubleHash h t.size k m) (0, 0)).1 ≠ k
      rw [getD_set_ne _ _ _ _ _ hne]
      exact hk
    · exact hq
    · show ((t.table.set (VariantA.doubleHash h t.size k j') (k, v)).getD
        (VariantA.doubleHash h t.size k j') (0, 0)).1 = k
      rw [getD_set_self _ _ _ _ (by omega)]
    · show ((t.table.set (VariantA.doubleHash h t.size k j') (k, v)).getD
        (VariantA.doubleHash h t.size k j') (0, 0)).2 = v
      rw [getD_set_self _ _ _ _ (by omega)]

theorem update_in_place_witness :
    ∃ t', VariantA.insert id ((VariantA.insert id (mkHT 10) 5 7).1) 5 99 = (t', none) ∧
      t'.count = ((VariantA.insert id (mkHT 10) 5 7).1).count ∧
      t'.size = ((VariantA.insert id (mkHT 10) 5 7).1).size ∧
      t'.occupied = ((VariantA.insert id (mkHT 10) 5 7).1).occupied ∧
      VariantA.retrieve id t' 5 = some 99 :=
  update_in_place id ((VariantA.insert id (mkHT 10) 5 7).1) 5 99 7
    (by decide) (by decide) (by decide)

namespace VariantA

/-! ## Potential function for the deletion-repair loop

Each iteration of the repair loop either leaves the table unchanged and steps
towards a fixed empty slot, or strictly decreases the potential
`occSum * (size + 1) + psiSum`: a reinserted entry lands strictly earlier in
its own probe sequence, and an entry merged into a matching slot lowers the
occupancy. -/

/-- Potential contribution of slot `p`: the first probe number at which the
key stored there reaches `p` (0 for empty slots). -/
def psiTerm (h : Nat → Nat) (t : HashTable) (p : Nat) : Nat :=
  if occAt t p then minIdx h t.size (keyAt t p) p else 0

def psiSum (h : Nat → Nat) (t : HashTable) : Nat :=
  ∑ p ∈ Finset.range t.size, psiTerm h t p

theorem occSum_le (t : HashTable) : occSum t ≤ t.size := by
  unfold occSum
  calc ∑ p ∈ Finset.range t.size, (if occAt t p then 1 else 0) ≤
      ∑ _p ∈ Finset.range t.size, 1 :=
        Finset.sum_le_sum (fun p _ => by split <;> omega)
    _ = t.size := by simp

theorem occSum_pos (t : HashTable) (j : Nat) (hj : j < t.size)
    (hocc : occAt t j = true) : 1 ≤ occSum t := by
  unfold occSum
  have hsplit := Finset.add_sum_erase (Finset.range t.size)
    (fun p => if occAt t p then (1 : Nat) else 0) (Finset.mem_range.mpr hj)
  rw [← hsplit]
  have hone : (fun p => if occAt t p = true then (1 : Nat) else 0) j = 1 := by
    simp [hocc]
  rw [hone]
  exact Nat.le_add_right 1 _

theorem psiSum_le (h : Nat → Nat) (t : HashTable) :
    psiSum h t ≤ occSum t * t.size := by
  unfold psiSum occSum
  rw [Finset.sum_mul]
  apply Finset.sum_le_sum
  intro p _
  unfold psiTerm
  split
  · simpa using minIdx_le h t.size (keyAt t p) p
  · simp

/-- Additive form of a single-slot occupancy update. -/
theorem occSum_update (t t2 : HashTable) (j : Nat) (hsz : t2.size = t.size)
    (hj : j < t.size)
    (hagree : ∀ p, p < t.size → p ≠ j → occAt t2 p = occAt t p) :
    occSum t2 + (if occAt t j then 1 else 0) =
      occSum t + (if occAt t2 j then 1 else 0) := by
  unfold occSum
  rw [hsz]
  exact sum_update t.size j (fun p => if occAt t p then 1 else 0)
    (fun p => if occAt t2 p then 1 else 0) hj
    (fun p hp hpj => by simp only [hagree p hp hpj])

/-- Additive form of a single-slot potential update. -/
theorem psiSum_update (h : Nat → Nat) (t t2 : HashTable) (j : Nat)
    (hsz : t2.size = t.size) (hj : j < t.size)
    (hagree : ∀ p, p < t.size → p ≠ j →
      occAt t2 p = occAt t p ∧ keyAt t2 p = keyAt t p) :
    psiSum h t2 + psiTerm h t j = psiSum h t + psiTerm h t2 j := by
  unfold psiSum
  rw [hsz]
  apply sum_update t.size j (fun p => psiTerm h t p) (fun p => psiTerm h t2 p) hj
  intro p hp hpj
  simp only [psiTerm, hsz, (hagree p hp hpj).1, (hagree p hp hpj).2]

end VariantA

/-- Structure extensionality for tables. -/
theorem HashTable_ext (a b : HashTable) (h1 : a.table = b.table)
    (h2 : a.occupied = b.occupied) (h3 : a.size = b.size) (h4 : a.count = b.count) :
    a = b := by
  cases a
  cases b
  simp_all

namespace VariantA

/-- One iteration of the deletion-repair loop, from a loop-head state: slot
`j` is occupied, `t1` is the table with slot `j` cleared and the count
decremented.  The reinsertion through the full `insert` cannot grow the table
(the load bound rules the check out), cannot fail (slot `j` itself is on the
entry's probe sequence and now empty), and either refills slot `j` leaving
the table exactly as it was, or strictly decreases the potential
`occSum * (n + 1) + psiSum` while preserving the loop-head invariant and
leaving slot `j` empty. -/
theorem repair_iteration (h : Nat → Nat) (n : Nat) (t t1 : HashTable) (j : Nat)
    (hinv : RInv h n t) (hj : j < n) (hocc : t.occupied.getD j false = true)
    (ht1tb : t1.table = t.table) (ht1oc : t1.occupied = t.occupied.set j false)
    (ht1sz : t1.size = t.size) (ht1cnt : t1.count = t.count - 1) :
    ∃ t2, insert h t1 (t.table.getD j (0, 0)).1 (t.table.getD j (0, 0)).2 = (t2, none) ∧
      (t2 = t ∨
        (RInv h n t2 ∧ occAt t2 j = false ∧
          occSum t2 * (n + 1) + psiSum h t2 < occSum t * (n + 1) + psiSum h t)) := by
  obtain ⟨hsz, hn, hlt, hlo, hcnt, hbound, hcons⟩ := hinv
  have hjt : j < t.size := by omega
  have hoccj : occAt t j = true := hocc
  have hcountpos : 1 ≤ t.count := by
    have := occSum_pos t j hjt hoccj
    omega
  have hocc1j : occAt t1 j = false := by
    show t1.occupied.getD j false = false
    rw [ht1oc, getD_set_self _ _ _ _ (by omega)]
  have hocc1 : ∀ p, p ≠ j → occAt t1 p = occAt t p := by
    intro p hp
    show t1.occupied.getD p false = t.occupied.getD p false
    rw [ht1oc, getD_set_ne _ _ _ _ _ hp]
  have hkey1 : ∀ p, keyAt t1 p = keyAt t p := by
    intro p
    show (t1.table.getD p (0, 0)).1 = (t.table.getD p (0, 0)).1
    rw [ht1tb]
  obtain ⟨istar, histar, hdh⟩ := hcons j hjt hoccj
  -- the reinserted key and value
  have hins_eq : insert h t1 (t.table.getD j (0, 0)).1 (t.table.getD j (0, 0)).2 =
      insertLoop h (t.table.getD j (0, 0)).1 (t.table.getD j (0, 0)).2 t1 0 t1.size := by
    rw [insert, if_neg]
    omega
  have hwit : ∃ i, i < t1.size ∧
      (occAt t1 (doubleHash h t1.size (t.table.getD j (0, 0)).1 i) = false ∨
        keyAt t1 (doubleHash h t1.size (t.table.getD j (0, 0)).1 i) =
          (t.table.getD j (0, 0)).1) := by
    refine ⟨istar, by omega, Or.inl ?_⟩
    rw [ht1sz]
    have hdh' : doubleHash h t.size (t.table.getD j (0, 0)).1 istar = j := hdh
    rw [hdh']
    exact hocc1j
  obtain ⟨t2, hok⟩ := insertLoop_succeeds h (t.table.getD j (0, 0)).1
    (t.table.getD j (0, 0)).2 t1 t1.size hwit
  refine ⟨t2, by rw [hins_eq, hok], ?_⟩
  obtain ⟨js, _, hjs2, hpre, hland⟩ := insertLoop_ok h (t.table.getD j (0, 0)).1
    (t.table.getD j (0, 0)).2 t1 t1.size 0 t2 hok
  rw [ht1sz] at hjs2 hpre hland
  have hjslt : js < t.size := by omega
  have hqlt : doubleHash h t.size (t.table.getD j (0, 0)).1 js < t.size :=
    Nat.mod_lt _ (by omega)
  -- minIdx facts for slot j
  have hminj_le : minIdx h t.size (t.table.getD j (0, 0)).1 j ≤ istar :=
    minIdx_le_of_hit h t.size _ j istar histar hdh
  have hminj_lt : minIdx h t.size (t.table.getD j (0, 0)).1 j < t.size := by omega
  have hminj_hit : doubleHash h t.size (t.table.getD j (0, 0)).1
      (minIdx h t.size (t.table.getD j (0, 0)).1 j) = j :=
    minIdx_hit h t.size _ j hminj_lt
  have hjs_le : js ≤ minIdx h t.size (t.table.getD j (0, 0)).1 j := by
    by_contra hgt
    have hm := hpre (minIdx h t.size (t.table.getD j (0, 0)).1 j) (Nat.zero_le _)
      (by omega)
    rw [hminj_hit] at hm
    rw [hocc1j] at hm
    exact Bool.noConfusion hm.1
  have hq_min_le : minIdx h t.size (t.table.getD j (0, 0)).1
      (doubleHash h t.size (t.table.getD j (0, 0)).1 js) ≤ js :=
    minIdx_le_of_hit h t.size _ _ js hjslt rfl
  rcases hland with ⟨hqe, ht2⟩ | ⟨hqo, hqk, ht2⟩
  · -- the reinsertion landed in an empty slot
    by_cases hqj : doubleHash h t.size (t.table.getD j (0, 0)).1 js = j
    · -- self-refill: the table is exactly as before the clear
      left
      rw [ht2]
      apply HashTable_ext
      · show (t1.table.set (doubleHash h t.size (t.table.getD j (0, 0)).1 js)
          ((t.table.getD j (0, 0)).1, (t.table.getD j (0, 0)).2)) = t.table
        rw [ht1tb, hqj]
        have heta : ((t.table.getD j (0, 0)).1, (t.table.getD j (0, 0)).2) =
            t.table.getD j (0, 0) := rfl
        rw [heta, set_getD_self _ _ _ (by omega)]
      · show (t1.occupied.set (doubleHash h t.size (t.table.getD j (0, 0)).1 js) true) =
          t.occupied
        rw [ht1oc, hqj, List.set_set]
        have : true = t.occupied.getD j false := hocc.symm
        rw [this, set_getD_self _ _ _ (by omega)]
      · rfl
      · show t1.count + 1 = t.count
        omega
    · -- displacement: the entry moved strictly earlier in its probe sequence
      right
      have hocc2 : ∀ p, p ≠ doubleHash h t.size (t.table.getD j (0, 0)).1 js →
          occAt t2 p = occAt t1 p := by
        intro p hp
        rw [ht2]
        show (t1.occupied.set _ true).getD p false = t1.occupied.getD p false
        rw [getD_set_ne _ _ _ _ _ hp]
      have hkey2 : ∀ p, p ≠ doubleHash h t.size (t.table.getD j (0, 0)).1 js →
          keyAt t2 p = keyAt t1 p := by
        intro p hp
        rw [ht2]
        show ((t1.table.set _ _).getD p (0, 0)).1 = (t1.table.getD p (0, 0)).1
        rw [getD_set_ne _ _ _ _ _ hp]
      have hocc2q : occAt t2 (doubleHash h t.size (t.table.getD j (0, 0)).1 js) = true := by
        rw [ht2]
        show (t1.occupied.set _ true).getD _ false = true
        rw [getD_set_self]
        rw [ht1oc, List.length_set]
        omega
      have hkey2q : keyAt t2 (doubleHash h t.size (t.table.getD j (0, 0)).1 js) =
          (t.table.getD j (0, 0)).1 := by
        rw [ht2]
        show ((t1.table.set _ _).getD _ (0, 0)).1 = _
        rw [getD_set_self]
        rw [ht1tb]
        omega
      have ht2sz : t2.size = t.size := by rw [ht2]
      have ht2cnt : t2.count = t.count := by
        rw [ht2]
        show t1.count + 1 = t.count
        omega
      have ht2lt : t2.table.length = n := by
        rw [ht2]
        show (t1.table.set _ _).length = n
        rw [List.length_set, ht1tb]
        omega
      have ht2lo : t2.occupied.length = n := by
        rw [ht2]
        show (t1.occupied.set _ true).length = n
        rw [List.length_set, ht1oc, List.length_set]
        omega
      -- occupancy bookkeeping
      have hstep1 : occSum t1 + 1 = occSum t := by
        have hu := occSum_update t t1 j ht1sz hjt (fun p _ hp => hocc1 p hp)
        rw [hoccj, hocc1j] at hu
        simpa using hu
      have hstep2 : occSum t2 = occSum t1 + 1 := by
        have hu := occSum_update t1 t2 (doubleHash h t.size (t.table.getD j (0, 0)).1 js)
          (by rw [ht2sz, ht1sz]) (by omega) (fun p _ hp => hocc2 p hp)
        rw [hqe, hocc2q] at hu
        simpa using hu
      -- potential bookkeeping
      have hpsi1 : psiSum h t1 + minIdx h t.size (t.table.getD j (0, 0)).1 j = psiSum h t := by
        have hu := psiSum_update h t t1 j ht1sz hjt
          (fun p hple hp => ⟨hocc1 p hp, hkey1 p⟩)
        have hterm_t : psiTerm h t j = minIdx h t.size (t.table.getD j (0, 0)).1 j := by
          unfold psiTerm
          rw [hoccj]
          simp [keyAt]
        have hterm_t1 : psiTerm h t1 j = 0 := by
          unfold psiTerm
          rw [hocc1j]
          simp
        rw [hterm_t, hterm_t1] at hu
        simpa using hu
      have hpsi2 : psiSum h t2 = psiSum h t1 +
          minIdx h t.size (t.table.getD j (0, 0)).1
            (doubleHash h t.size (t.table.getD j (0, 0)).1 js) := by
        have hu := psiSum_update h t1 t2 (doubleHash h t.size (t.table.getD j (0, 0)).1 js)
          (by rw [ht2sz, ht1sz]) (by omega)
          (fun p hple hp => ⟨hocc2 p hp, hkey2 p hp⟩)
        have hterm_t1 : psiTerm h t1 (doubleHash h t.size (t.table.getD j (0, 0)).1 js) = 0 := by
          unfold psiTerm
          rw [hqe]
          simp
        have hterm_t2 : psiTerm h t2 (doubleHash h t.size (t.table.getD j (0, 0)).1 js) =
            minIdx h t.size (t.table.getD j (0, 0)).1
              (doubleHash h t.size (t.table.getD j (0, 0)).1 js) := by
          unfold psiTerm
          rw [hocc2q, ht2sz, hkey2q]
          simp
        rw [hterm_t1, hterm_t2] at hu
        simpa using hu
      -- strictness
      have hjs_lt : js < minIdx h t.size (t.table.getD j (0, 0)).1 j := by
        rcases Nat.lt_or_ge js (minIdx h t.size (t.table.getD j (0, 0)).1 j) with hlt' | hge
        · exact hlt'
        · exfalso
          have : js = minIdx h t.size (t.table.getD j (0, 0)).1 j := by omega
          rw [this] at hqj
          exact hqj hminj_hit
      have hmin_lt : minIdx h t.size (t.table.getD j (0, 0)).1
          (doubleHash h t.size (t.table.getD j (0, 0)).1 js) <
            minIdx h t.size (t.table.getD j (0, 0)).1 j := by omega
      refine ⟨⟨by omega, by omega, ht2lt, ht2lo, ?_, by omega, ?_⟩, ?_, ?_⟩
      · -- count = occSum
        omega
      · -- probe-consistency
        intro p hp hpo
        rw [ht2sz] at hp
        by_cases hpq : p = doubleHash h t.size (t.table.getD j (0, 0)).1 js
        · refine ⟨js, by omega, ?_⟩
          rw [ht2sz, hpq, hkey2q]
        · have hval := hocc2 p hpq
          rw [hval] at hpo
          by_cases hpj : p = j
          · rw [hpj] at hpo
            rw [hocc1j] at hpo
            exact Bool.noConfusion hpo
          · rw [hocc1 p hpj] at hpo
            obtain ⟨i, hi, hie⟩ := hcons p (by omega) hpo
            refine ⟨i, by omega, ?_⟩
            rw [ht2sz, hkey2 p hpq, hkey1 p]
            exact hie
      · -- slot j is now empty
        have hjq : j ≠ doubleHash h t.size (t.table.getD j (0, 0)).1 js :=
          fun he => hqj he.symm
        rw [hocc2 j hjq]
        exact hocc1j
      · -- the potential strictly drops
        have hocc_eq : occSum t2 = occSum t := by omega
        rw [hocc_eq]
        omega
  · -- the reinsertion merged into a matching occupied slot
    right
    have hqj : doubleHash h t.size (t.table.getD j (0, 0)).1 js ≠ j := by
      intro he
      rw [he] at hqo
      rw [hocc1j] at hqo
      exact Bool.noConfusion hqo
    have hocc2 : ∀ p, occAt t2 p = occAt t1 p := by
      intro p
      rw [ht2]
      rfl
    have hkey2 : ∀ p, p ≠ doubleHash h t.size (t.table.getD j (0, 0)).1 js →
        keyAt t2 p = keyAt t1 p := by
      intro p hp
      rw [ht2]
      show ((t1.table.set _ _).getD p (0, 0)).1 = (t1.table.getD p (0, 0)).1
      rw [getD_set_ne _ _ _ _ _ hp]
    have hkey2q : keyAt t2 (doubleHash h t.size (t.table.getD j (0, 0)).1 js) =
        (t.table.getD j (0, 0)).1 := by
      rw [ht2]
      show ((t1.table.set _ _).getD _ (0, 0)).1 = _
      rw [getD_set_self]
      rw [ht1tb]
      omega
    have ht2sz : t2.size = t.size := by rw [ht2]
    have ht2cnt : t2.count = t.count - 1 := by
      rw [ht2]
      exact ht1cnt
    have ht2lt : t2.table.length = n := by
      rw [ht2]
      show (t1.table.set _ _).length = n
      rw [List.length_set, ht1tb]
      omega
    have ht2lo : t2.occupied.length = n := by
      rw [ht2]
      show (t1.occupied).length = n
      rw [ht1oc, List.length_set]
      omega
    have hstep1 : occSum t1 + 1 = occSum t := by
      have hu := occSum_update t t1 j ht1sz hjt (fun p _ hp => hocc1 p hp)
      rw [hoccj, hocc1j] at hu
      simpa using hu
    have hstep2 : occSum t2 = occSum t1 := by
      unfold occSum
      rw [ht2sz, ht1sz]
      apply Finset.sum_congr rfl
      intro p _
      rw [hocc2 p]
    have hpsi1 : psiSum h t1 + minIdx h t.size (t.table.getD j (0, 0)).1 j = psiSum h t := by
      have hu := psiSum_update h t t1 j ht1sz hjt
        (fun p hple hp => ⟨hocc1 p hp, hkey1 p⟩)
      have hterm_t : psiTerm h t j = minIdx h t.size (t.table.getD j (0, 0)).1 j := by
        unfold psiTerm
        rw [hoccj]
        simp [keyAt]
      have hterm_t1 : psiTerm h t1 j = 0 := by
        unfold psiTerm
        rw [hocc1j]
        simp
      rw [hterm_t, hterm_t1] at hu
      simpa using hu
    have hpsi2 : psiSum h t2 = psiSum h t1 := by
      have hu := psiSum_update h t1 t2 (doubleHash h t.size (t.table.getD j (0, 0)).1 js)
        (by rw [ht2sz, ht1sz]) (by omega)
        (fun p hple hp => ⟨hocc2 p, hkey2 p hp⟩)
      have hterm_t1 : psiTerm h t1 (doubleHash h t.size (t.table.getD j (0, 0)).1 js) =
          minIdx h t.size (t.table.getD j (0, 0)).1
            (doubleHash h t.size (t.table.getD j (0, 0)).1 js) := by
        unfold psiTerm
        rw [hqo, ht1sz, hqk]
        simp
      have hterm_t2 : psiTerm h t2 (doubleHash h t.size (t.table.getD j (0, 0)).1 js) =
          minIdx h t.size (t.table.getD j (0, 0)).1
            (doubleHash h t.size (t.table.getD j (0, 0)).1 js) := by
        unfold psiTerm
        rw [hocc2, hqo, ht2sz, hkey2q]
        simp
      rw [hterm_t1, hterm_t2] at hu
      omega
    have hone : 1 ≤ occSum t := by omega
    refine ⟨⟨by omega, by omega, ht2lt, ht2lo, by omega, by omega, ?_⟩, ?_, ?_⟩
    · -- probe-consistency
      intro p hp hpo
      rw [ht2sz] at hp
      by_cases hpq : p = doubleHash h t.size (t.table.getD j (0, 0)).1 js
      · refine ⟨js, by omega, ?_⟩
        rw [ht2sz, hpq, hkey2q]
      · rw [hocc2 p] at hpo
        by_cases hpj : p = j
        · rw [hpj] at hpo
          rw [hocc1j] at hpo
          exact Bool.noConfusion hpo
        · rw [hocc1 p hpj] at hpo
          obtain ⟨i, hi, hie⟩ := hcons p (by omega) hpo
          refine ⟨i, by omega, ?_⟩
          rw [ht2sz, hkey2 p hpq, hkey1 p]
          exact hie
    · -- slot j is still empty
      rw [hocc2 j]
      exact hocc1j
    · -- the potential strictly drops (occupancy went down by one)
      have hocc_eq : occSum t2 + 1 = occSum t := by omega
      have hprod : occSum t2 * (n + 1) + (n + 1) = occSum t * (n + 1) := by
        rw [← hocc_eq]
        ring
      omega

end VariantA

namespace VariantA

/-- Termination and success of the deletion-repair loop: from any loop-head
state satisfying the invariant, with an empty slot `d` steps ahead of `j` and
enough fuel, the loop reaches an empty slot, stops, and never throws.  Outer
strong induction on the potential bound `K0`, inner strong induction on the
distance `d` (a self-refilling iteration keeps the table and walks towards the
fixed empty slot; any other iteration strictly decreases the potential and
leaves slot `j` itself empty, at cyclic distance `n - 1` ahead). -/
theorem repair_term (h : Nat → Nat) (n : Nat) :
    ∀ K0 d t j fuel,
      RInv h n t →
      occSum t * (n + 1) + psiSum h t ≤ K0 →
      j < n → d < n →
      occAt t ((j + d) % n) = false →
      K0 * (n + 1) + d + 1 ≤ fuel →
      ∃ t', repair h fuel t j = some (t', none) ∧ RInv h n t' := by
  intro K0
  induction K0 using Nat.strong_induction_on with
  | _ K0 ihK =>
    intro d
    induction d using Nat.strong_induction_on with
    | _ d ihd =>
      intro t j fuel hinv hK hj hd hempty hfuel
      have hsz : t.size = n := hinv.1
      rcases fuel with _ | fuel
      · omega
      by_cases hocc : t.occupied.getD j false = true
      · -- the loop body runs
        have hd1 : 1 ≤ d := by
          rcases Nat.eq_zero_or_pos d with h0 | h1
          · rw [h0, Nat.add_zero, Nat.mod_eq_of_lt hj] at hempty
            have htrue : occAt t j = true := hocc
            rw [htrue] at hempty
            exact Bool.noConfusion hempty
          · exact h1
        obtain ⟨t2, hins, hcase⟩ := repair_iteration h n t
          { t with occupied := t.occupied.set j false, count := t.count - 1 } j
          hinv hj hocc rfl rfl rfl rfl
        have hstep : repair h (fuel + 1) t j = repair h fuel t2 ((j + 1) % t2.size) := by
          simp only [repair]
          rw [if_pos hocc, hins]
        rw [hstep]
        rcases hcase with he | ⟨hinv2, hocc2j, hKlt⟩
        · -- self-refill
          subst he
          have hmod : ((j + 1) % n + (d - 1)) % n = (j + d) % n := by
            rw [Nat.mod_add_mod]
            congr 1
            omega
          rw [show t2.size = n from hsz]
          exact ihd (d - 1) (by omega) t2 ((j + 1) % n) fuel hinv hK
            (Nat.mod_lt _ (by omega)) (by omega) (by rw [hmod]; exact hempty) (by omega)
        · -- strict potential decrease
          have hjt : j < t.size := by omega
          have hone := occSum_pos t j hjt hocc
          have hlow : 1 * (n + 1) ≤ occSum t * (n + 1) := Nat.mul_le_mul_right _ hone
          rw [one_mul] at hlow
          have hK0pos : 1 ≤ K0 := by omega
          have hexp : (K0 - 1) * (n + 1) + (n + 1) = K0 * (n + 1) := by
            have heq : K0 - 1 + 1 = K0 := by omega
            calc (K0 - 1) * (n + 1) + (n + 1) = (K0 - 1 + 1) * (n + 1) := by ring
              _ = K0 * (n + 1) := by rw [heq]
          have hmod2 : ((j + 1) % n + (n - 1)) % n = j := by
            rw [Nat.mod_add_mod]
            rw [show j + 1 + (n - 1) = j + n from by omega]
            rw [Nat.add_mod_right, Nat.mod_eq_of_lt hj]
          rw [show t2.size = n from hinv2.1]
          exact ihK (K0 - 1) (by omega) (n - 1) t2 ((j + 1) % n) fuel hinv2 (by omega)
            (Nat.mod_lt _ (by omega)) (by omega) (by rw [hmod2]; exact hocc2j) (by omega)
      · -- slot j is empty: the loop stops
        refine ⟨t, ?_, hinv⟩
        simp only [repair]
        rw [if_neg hocc]

end VariantA

namespace VariantA

/-- `remove`'s probe-and-repair always terminates normally on tables
satisfying the reachable-state invariant, and preserves the invariant. -/
theorem removeFrom_term (h : Nat → Nat) (k : Nat) (t : HashTable) (hinv : Inv h t) :
    ∀ fuel i, ∃ t', removeFrom h k t i fuel = some (t', none) ∧ Inv h t' := by
  obtain ⟨hpos, hlt, hlo, hcnt, hbound, hcons⟩ := hinv
  intro fuel
  induction fuel with
  | zero => exact fun i => ⟨t, rfl, ⟨hpos, hlt, hlo, hcnt, hbound, hcons⟩⟩
  | succ f ih =>
    intro i
    simp only [removeFrom]
    by_cases hocc : t.occupied.getD (doubleHash h t.size k i) false = true
    · rw [if_pos hocc]
      by_cases hkey : (t.table.getD (doubleHash h t.size k i) (0, 0)).1 = k
      · rw [if_pos hkey]
        have hidx : doubleHash h t.size k i < t.size := Nat.mod_lt _ hpos
        have hone : 1 ≤ occSum t := occSum_pos t _ hidx hocc
        have hocle : occSum t ≤ t.size := occSum_le t
        -- the table with the found slot cleared
        have hocc1j :
            occAt { t with occupied := t.occupied.set (doubleHash h t.size k i) false, count := t.count - 1 } (doubleHash h t.size k i) = false := by
          show (t.occupied.set _ false).getD _ false = false
          rw [getD_set_self _ _ _ _ (by omega)]
        have hocc1 : ∀ p, p ≠ doubleHash h t.size k i →
            occAt { t with occupied := t.occupied.set (doubleHash h t.size k i) false, count := t.count - 1 } p = occAt t p := by
          intro p hp
          show (t.occupied.set _ false).getD p false = t.occupied.getD p false
          rw [getD_set_ne _ _ _ _ _ hp]
        have hsum1 : occSum { t with occupied := t.occupied.set (doubleHash h t.size k i) false, count := t.count - 1 } + 1 = occSum t := by
          have hu := occSum_update t { t with occupied := t.occupied.set (doubleHash h t.size k i) false, count := t.count - 1 } (doubleHash h t.size k i) rfl hidx (fun p _ hp => hocc1 p hp)
          have hoccA : occAt t (doubleHash h t.size k i) = true := hocc
          rw [hoccA, hocc1j] at hu
          simpa using hu
        have hrinv1 : RInv h t.size { t with occupied := t.occupied.set (doubleHash h t.size k i) false, count := t.count - 1 } := by
          refine ⟨rfl, hpos, hlt, ?_, ?_, ?_, ?_⟩
          · show (t.occupied.set _ false).length = t.size
            rw [List.length_set]
            exact hlo
          · show t.count - 1 = occSum { t with occupied := t.occupied.set (doubleHash h t.size k i) false, count := t.count - 1 }
            omega
          · show 4 * (t.count - 1) ≤ 3 * t.size
            omega
          · intro p hp hpo
            by_cases hpidx : p = doubleHash h t.size k i
            · rw [hpidx] at hpo
              rw [hocc1j] at hpo
              exact Bool.noConfusion hpo
            · rw [hocc1 p hpidx] at hpo
              exact hcons p hp hpo
        have hKbound : occSum { t with occupied := t.occupied.set (doubleHash h t.size k i) false, count := t.count - 1 } * (t.size + 1) +
            psiSum h { t with occupied := t.occupied.set (doubleHash h t.size k i) false, count := t.count - 1 } ≤ 2 * t.size * t.size := by
          have h1 : occSum { t with occupied := t.occupied.set (doubleHash h t.size k i) false, count := t.count - 1 } ≤ t.size - 1 := by omega
          have h2 := psiSum_le h { t with occupied := t.occupied.set (doubleHash h t.size k i) false, count := t.count - 1 }
          have h3 : psiSum h { t with occupied := t.occupied.set (doubleHash h t.size k i) false, count := t.count - 1 } ≤ (t.size - 1) * t.size :=
            le_trans h2 (Nat.mul_le_mul_right _ h1)
          have h4 : occSum { t with occupied := t.occupied.set (doubleHash h t.size k i) false, count := t.count - 1 } * (t.size + 1) ≤ (t.size - 1) * (t.size + 1) :=
            Nat.mul_le_mul_right _ h1
          obtain ⟨m, hm⟩ : ∃ m, t.size = m + 1 := ⟨t.size - 1, by omega⟩
          rw [hm] at h3 h4 ⊢
          have e0 : m + 1 - 1 = m := by omega
          rw [e0] at h3 h4
          have e1 : m * (m + 1 + 1) = m * m + 2 * m := by ring
          have e2 : m * (m + 1) = m * m + m := by ring
          have e3 : 2 * (m + 1) * (m + 1) = 2 * (m * m) + 4 * m + 2 := by ring
          omega
        have hmod : ((doubleHash h t.size k i + 1) % t.size + (t.size - 1)) % t.size =
            doubleHash h t.size k i := by
          rw [Nat.mod_add_mod]
          rw [show doubleHash h t.size k i + 1 + (t.size - 1) =
            doubleHash h t.size k i + t.size from by omega]
          rw [Nat.add_mod_right, Nat.mod_eq_of_lt hidx]
        obtain ⟨t', hrep, hrinv'⟩ := repair_term h t.size (2 * t.size * t.size)
          (t.size - 1)
          { t with occupied := t.occupied.set (doubleHash h t.size k i) false, count := t.count - 1 }
          ((doubleHash h t.size k i + 1) % t.size) (repairFuel t.size)
          hrinv1 hKbound (Nat.mod_lt _ (by omega)) (by omega)
          (by rw [hmod]; exact hocc1j) (by rw [repairFuel]; omega)
        refine ⟨t', hrep, ?_⟩
        obtain ⟨hs', hn', hlt', hlo', hcnt', hbound', hcons'⟩ := hrinv'
        exact ⟨by omega, by omega, by omega, by omega, by omega, hcons'⟩
      · rw [if_neg hkey]
        exact ih (i + 1)
    · rw [if_neg hocc]
      exact ⟨t, rfl, ⟨hpos, hlt, hlo, hcnt, hbound, hcons⟩⟩

/-- On tables satisfying the invariant, `remove` terminates normally for
every key, preserving the invariant. -/
theorem remove_term (h : Nat → Nat) (t : HashTable) (k : Nat) (hinv : Inv h t) :
    ∃ t', remove h t k = some (t', none) ∧ Inv h t' :=
  removeFrom_term h k t hinv t.size 0

/-- Removing a key held by no occupied slot is a no-op: the probe loop either
hits an empty slot or exhausts all probes, and returns with the table
untouched. -/
theorem remove_absent (h : Nat → Nat) (t : HashTable) (k : Nat)
    (habs : KeyAbsent t k) : remove h t k = some (t, none) := by
  rcases Nat.eq_zero_or_pos t.size with h0 | hpos
  · rw [remove, h0]
    rfl
  · rw [remove]
    have hgen : ∀ fuel i, removeFrom h k t i fuel = some (t, none) := by
      intro fuel
      induction fuel with
      | zero => intro i; rfl
      | succ f ih =>
        intro i
        simp only [removeFrom]
        by_cases hocc : t.occupied.getD (doubleHash h t.size k i) false = true
        · rw [if_pos hocc]
          have hne : (t.table.getD (doubleHash h t.size k i) (0, 0)).1 ≠ k :=
            habs _ (Nat.mod_lt _ hpos) hocc
          rw [if_neg hne]
          exact ih (i + 1)
        · rw [if_neg hocc]
    exact hgen t.size 0

end VariantA

namespace VariantA

theorem entriesFrom_length_le :
    ∀ (tb : List (Nat × Nat)) (oc : List Bool),
      (entriesFrom tb oc).length ≤ oc.length := by
  intro tb
  induction tb with
  | nil => intro oc; cases oc <;> simp [entriesFrom]
  | cons hd tl ih =>
    intro oc
    cases oc with
    | nil => simp [entriesFrom]
    | cons o ol =>
      simp only [entriesFrom]
      cases o with
      | false =>
        rw [if_neg (by simp)]
        have := ih ol
        simp only [List.length_cons]
        omega
      | true =>
        rw [if_pos rfl]
        have := ih ol
        simp only [List.length_cons]
        omega

theorem occSum_mkHT (s : Nat) : occSum (mkHT s) = 0 := by
  unfold occSum
  apply Finset.sum_eq_zero
  intro p _
  rw [occAt_mkHT]
  simp

/-- The probe loop preserves the invariant fields (no growth happens inside
the loop) and raises the count by at most one. -/
theorem insertLoop_inv (h : Nat → Nat) (k v : Nat) (t t' : HashTable)
    (hpos : 0 < t.size) (hlt : t.table.length = t.size)
    (hlo : t.occupied.length = t.size) (hcnt : t.count = occSum t)
    (hcons : probeCons h t)
    (hrun : insertLoop h k v t 0 t.size = (t', none)) :
    t'.size = t.size ∧ t'.table.length = t.size ∧ t'.occupied.length = t.size ∧
      t'.count = occSum t' ∧ t'.count ≤ t.count + 1 ∧ probeCons h t' := by
  obtain ⟨j, _, hj2, hpre, hland⟩ := insertLoop_ok h k v t t.size 0 t' hrun
  have hqlt : doubleHash h t.size k j < t.size := Nat.mod_lt _ hpos
  rcases hland with ⟨hq, ht'⟩ | ⟨hq, hqk, ht'⟩
  · -- placed in an empty slot
    have hocc' : ∀ p, p ≠ doubleHash h t.size k j → occAt t' p = occAt t p := by
      intro p hp
      rw [ht']
      show (t.occupied.set _ true).getD p false = t.occupied.getD p false
      rw [getD_set_ne _ _ _ _ _ hp]
    have hkey' : ∀ p, p ≠ doubleHash h t.size k j → keyAt t' p = keyAt t p := by
      intro p hp
      rw [ht']
      show ((t.table.set _ _).getD p (0, 0)).1 = (t.table.getD p (0, 0)).1
      rw [getD_set_ne _ _ _ _ _ hp]
    have hoccq : occAt t' (doubleHash h t.size k j) = true := by
      rw [ht']
      show (t.occupied.set _ true).getD _ false = true
      rw [getD_set_self _ _ _ _ (by omega)]
    have hkeyq : keyAt t' (doubleHash h t.size k j) = k := by
      rw [ht']
      show ((t.table.set _ _).getD _ (0, 0)).1 = k
      rw [getD_set_self _ _ _ _ (by omega)]
    have hsz' : t'.size = t.size := by rw [ht']
    have hsum : occSum t' = occSum t + 1 := by
      have hu := occSum_update t t' (doubleHash h t.size k j) hsz' hqlt
        (fun p _ hp => hocc' p hp)
      rw [hq, hoccq] at hu
      simpa using hu
    refine ⟨hsz', ?_, ?_, ?_, ?_, ?_⟩
    · rw [ht']
      show (t.table.set _ _).length = t.size
      rw [List.length_set]
      exact hlt
    · rw [ht']
      show (t.occupied.set _ true).length = t.size
      rw [List.length_set]
      exact hlo
    · have : t'.count = t.count + 1 := by rw [ht']
      omega
    · have : t'.count = t.count + 1 := by rw [ht']
      omega
    · intro p hp hpo
      rw [hsz'] at hp
      by_cases hpq : p = doubleHash h t.size k j
      · refine ⟨j, by omega, ?_⟩
        rw [hsz', hpq, hkeyq]
      · rw [hocc' p hpq] at hpo
        obtain ⟨i, hi, hie⟩ := hcons p hp hpo
        refine ⟨i, by omega, ?_⟩
        rw [hsz', hkey' p hpq]
        exact hie
  · -- overwrote the matching slot
    have hocc' : ∀ p, occAt t' p = occAt t p := by
      intro p
      rw [ht']
      rfl
    have hkey' : ∀ p, p ≠ doubleHash h t.size k j → keyAt t' p = keyAt t p := by
      intro p hp
      rw [ht']
      show ((t.table.set _ _).getD p (0, 0)).1 = (t.table.getD p (0, 0)).1
      rw [getD_set_ne _ _ _ _ _ hp]
    have hkeyq : keyAt t' (doubleHash h t.size k j) = k := by
      rw [ht']
      show ((t.table.set _ _).getD _ (0, 0)).1 = k
      rw [getD_set_self _ _ _ _ (by omega)]
    have hsz' : t'.size = t.size := by rw [ht']
    have hsum : occSum t' = occSum t := by
      unfold occSum
      rw [hsz']
      exact Finset.sum_congr rfl (fun p _ => by rw [hocc' p])
    refine ⟨hsz', ?_, ?_, ?_, ?_, ?_⟩
    · rw [ht']
      show (t.table.set _ _).length = t.size
      rw [List.length_set]
      exact hlt
    · rw [ht']
      exact hlo
    · have : t'.count = t.count := by rw [ht']
      omega
    · have : t'.count = t.count := by rw [ht']
      omega
    · intro p hp hpo
      rw [hsz'] at hp
      by_cases hpq : p = doubleHash h t.size k j
      · obtain ⟨i, hi, hie⟩ := hcons (doubleHash h t.size k j) hqlt hq
        rw [hqk] at hie
        refine ⟨i, by omega, ?_⟩
        rw [hsz', hpq, hkeyq]
        exact hie
      · rw [hocc' p] at hpo
        obtain ⟨i, hi, hie⟩ := hcons p hp hpo
        refine ⟨i, by omega, ?_⟩
        rw [hsz', hkey' p hpq]
        exact hie

end VariantA

namespace VariantA

/-- The rehash loop preserves the invariant fields; starting under half load
it never re-triggers growth (the `rehashRegrow` branch is unreachable) and
ends under half load. -/
theorem rehashList_inv (h : Nat → Nat) :
    ∀ (l : List (Nat × Nat)) acc acc' e, rehashList h l acc = (acc', e) →
      0 < acc.size → acc.table.length = acc.size → acc.occupied.length = acc.size →
      acc.count = occSum acc → probeCons h acc →
      2 * (acc.count + l.length) ≤ acc.size →
      acc'.size = acc.size ∧ acc'.table.length = acc.size ∧
        acc'.occupied.length = acc.size ∧ acc'.count = occSum acc' ∧
        probeCons h acc' ∧ 2 * acc'.count ≤ acc.size := by
  intro l
  induction l with
  | nil =>
    intro acc acc' e hrun hpos hlt hlo hcnt hcons hload
    simp only [rehashList, Prod.mk.injEq] at hrun
    rw [← hrun.1]
    simp only [List.length_nil] at hload
    exact ⟨rfl, hlt, hlo, hcnt, hcons, by omega⟩
  | cons kv rest ih =>
    intro acc acc' e hrun hpos hlt hlo hcnt hcons hload
    simp only [rehashList] at hrun
    simp only [List.length_cons] at hload
    have hchk : ¬(4 * acc.count > 3 * acc.size) := by omega
    rcases hstep : rehashStep h acc kv with ⟨acc1, e1⟩
    rw [hstep] at hrun
    rw [rehashStep, if_neg hchk] at hstep
    cases e1 with
    | none =>
      obtain ⟨h1, h2, h3, h4, h5, h6⟩ :=
        insertLoop_inv h kv.1 kv.2 acc acc1 hpos hlt hlo hcnt hcons hstep
      obtain ⟨g1, g2, g3, g4, g5, g6⟩ := ih acc1 acc' e hrun (by omega) (by omega)
        (by omega) h4 h6 (by omega)
      exact ⟨by omega, by omega, by omega, g4, g5, by omega⟩
    | some err =>
      obtain ⟨he1, _, _⟩ := insertLoop_err h kv.1 kv.2 acc acc.size 0 acc1 err hstep
      simp only [Prod.mk.injEq] at hrun
      rw [← hrun.1, he1]
      exact ⟨rfl, hlt, hlo, hcnt, hcons, by omega⟩

/-- `insert` preserves the reachable-state invariant, also when it grows the
table and also when the exception escapes (with the mid-rehash state). -/
theorem insert_inv (h : Nat → Nat) (t : HashTable) (k v : Nat) (t' : HashTable)
    (e : Option Err) (hinv : Inv h t) (hrun : insert h t k v = (t', e)) :
    Inv h t' := by
  obtain ⟨hpos, hlt, hlo, hcnt, hbound, hcons⟩ := hinv
  rw [insert] at hrun
  by_cases hchk : 4 * t.count > 3 * t.size
  · rw [if_pos hchk] at hrun
    rcases hres : resize h t with ⟨tr, er⟩
    rw [hres] at hrun
    have hmkcons : probeCons h (mkHT (2 * t.size)) := by
      intro p hp hpo
      rw [occAt_mkHT] at hpo
      exact Bool.noConfusion hpo
    have hentlen : (entries t).length ≤ t.size := by
      have := entriesFrom_length_le t.table t.occupied
      rw [hlo] at this
      exact this
    have hmks : (mkHT (2 * t.size)).size = 2 * t.size := rfl
    have hmkt : (mkHT (2 * t.size)).table.length = (mkHT (2 * t.size)).size := by
      simp [mkHT]
    have hmko : (mkHT (2 * t.size)).occupied.length = (mkHT (2 * t.size)).size := by
      simp [mkHT]
    have hmkc : (mkHT (2 * t.size)).count = occSum (mkHT (2 * t.size)) :=
      (occSum_mkHT (2 * t.size)).symm
    obtain ⟨hr1, hr2, hr3, hr4, hr5, hr6⟩ := rehashList_inv h (entries t)
      (mkHT (2 * t.size)) tr er hres (by rw [hmks]; omega) hmkt hmko hmkc hmkcons
      (by rw [hmks]; show 2 * (0 + (entries t).length) ≤ 2 * t.size; omega)
    rw [hmks] at hr1 hr2 hr3 hr6
    cases er with
    | some e0 =>
      simp only [Prod.mk.injEq] at hrun
      rw [← hrun.1]
      exact ⟨by omega, by omega, by omega, hr4, by omega, hr5⟩
    | none =>
      cases e with
      | none =>
        obtain ⟨g1, g2, g3, g4, g5, g6⟩ := insertLoop_inv h k v tr t'
          (by omega) (by omega) (by omega) hr4 hr5 hrun
        refine ⟨by omega, by omega, by omega, g4, by omega, g6⟩
      | some e0 =>
        obtain ⟨he1, _, _⟩ := insertLoop_err h k v tr tr.size 0 t' e0 hrun
        rw [he1]
        exact ⟨by omega, by omega, by omega, hr4, by omega, hr5⟩
  · rw [if_neg hchk] at hrun
    cases e with
    | none =>
      obtain ⟨g1, g2, g3, g4, g5, g6⟩ := insertLoop_inv h k v t t'
        hpos hlt hlo hcnt hcons hrun
      exact ⟨by omega, by omega, by omega, g4, by omega, g6⟩
    | some e0 =>
      obtain ⟨he1, _, _⟩ := insertLoop_err h k v t t.size 0 t' e0 hrun
      rw [he1]
      exact ⟨hpos, hlt, hlo, hcnt, hbound, hcons⟩

end VariantA

/-- Tables reachable through the public interface of the growth variant: a
fresh table of positive capacity, followed by any sequence of `insert` and
`remove` calls — including ones whose exception escaped (the C++ object
remains usable in whatever state the throw left it). -/
inductive Reachable (h : Nat → Nat) : HashTable → Prop where
  | init (s : Nat) (hs : 0 < s) : Reachable h (mkHT s)
  | insertStep (t t' : HashTable) (k v : Nat) (e : Option Err)
      (ht : Reachable h t) (he : VariantA.insert h t k v = (t', e)) : Reachable h t'
  | removeStep (t t' : HashTable) (k : Nat) (e : Option Err)
      (ht : Reachable h t) (he : VariantA.remove h t k = some (t', e)) : Reachable h t'

/-- Every reachable table satisfies the invariant. -/
theorem reachable_inv (h : Nat → Nat) (t : HashTable) (hr : Reachable h t) :
    VariantA.Inv h t := by
  induction hr with
  | init s hs =>
    refine ⟨hs, by simp [mkHT], by simp [mkHT], (VariantA.occSum_mkHT s).symm, by simp [mkHT], ?_⟩
    intro p hp hpo
    rw [VariantA.occAt_mkHT] at hpo
    exact Bool.noConfusion hpo
  | insertStep t t' k v e ht he ih => exact VariantA.insert_inv h t k v t' e ih he
  | removeStep t t' k e ht he ih =>
    obtain ⟨t'', hrun, hinv''⟩ := VariantA.remove_term h t k ih
    rw [hrun] at he
    have : t'' = t' := by
      have hp := Option.some_inj.mp he
      exact congrArg Prod.fst hp
    rw [← this]
    exact hinv''

/-! ## Claim C4: termination of the public operations -/

/-- C4: on every reachable table, `remove` — the one operation whose
deletion-repair loop is not syntactically bounded — terminates: the fueled
model never exhausts its fuel, i.e. the repair loop always reaches an empty
slot and stops (or an escaping reinsertion exception ends it; on reachable
tables that never happens either, see C9).  `insert` and `retrieve` are
bounded by construction: their probe loops run for at most `size` probes,
exactly as the source's `while (i < size)` loops. -/
theorem operations_terminate (h : Nat → Nat) (t : HashTable) (k : Nat)
    (hr : Reachable h t) : ∃ r, VariantA.remove h t k = some r := by
  obtain ⟨t', hrun, _⟩ := VariantA.remove_term h t k (reachable_inv h t hr)
  exact ⟨(t', none), hrun⟩

theorem operations_terminate_witness :
    ∃ r, VariantA.remove id (mkHT 10) 3 = some r :=
  operations_terminate id (mkHT 10) 3 (Reachable.init 10 (by decide))

/-! ## Claim C9: remove never raises an error -/

/-- C9: on every reachable table, `remove` returns normally for every key —
no exception escapes, neither from the probe loop nor from the reinsertion
done by the deletion repair (every reinserted entry finds its own just-
cleared slot on its probe sequence, and the repair cannot re-trigger growth)
— and removing a key held by no slot leaves the table exactly unchanged. -/
theorem remove_never_errors (h : Nat → Nat) (t : HashTable) (k : Nat)
    (hr : Reachable h t) :
    ∃ t', VariantA.remove h t k = some (t', none) ∧
      (VariantA.KeyAbsent t k → t' = t) := by
  obtain ⟨t', hrun, _⟩ := VariantA.remove_term h t k (reachable_inv h t hr)
  refine ⟨t', hrun, fun habs => ?_⟩
  have h2 := VariantA.remove_absent h t k habs
  rw [hrun] at h2
  exact congrArg Prod.fst (Option.some_inj.mp h2)

theorem remove_never_errors_witness :
    ∃ t', VariantA.remove id tAB 0 = some (t', none) ∧
      (VariantA.KeyAbsent tAB 0 → t' = tAB) := by
  apply remove_never_errors
  exact Reachable.insertStep _ _ 10 200 _
    (Reachable.insertStep _ _ 0 100 _ (Reachable.init 10 (by decide)) rfl) rfl
